import Mathlib

/-!
Verification of the pynewood_derby heat-scheduling engine.

This file gives a shallow embedding of the scheduling core of the
repository (files `heats_perfect.py`, `heats_runoff.py`, `race_utils.py`)
and proves the structural properties claimed by the specification.

Modelling conventions:
- A pandas `DataFrame` with columns Heat/Car/Lane is a `List Assignment`
  (row order is list order).
- Car identifiers and lane labels are strings, heat numbers are `Nat`.
- Python floats (the fairness score) are embedded as rationals `ℚ`.
- Randomness (`secrets.randbelow`, `random.sample`, `random.choice`) is
  modelled by explicit oracle parameters; theorems quantify over all
  oracles, hence over all random outcomes.
-/

abbrev Car := String

abbrev Lane := String

/-- One pending run obligation `{"Car": ..., "Lane": ...}` (heats_perfect.py). -/
structure Run where
  car : Car
  lane : Lane
deriving DecidableEq, Repr

/-- One row of a heat table: `{"Heat": ..., "Car": ..., "Lane": ...}`. -/
structure Assignment where
  heat : Nat
  car : Car
  lane : Lane
deriving DecidableEq, Repr

/-- The rows of a heat table belonging to one heat (a pandas `groupby("Heat")` group). -/
def fiber (df : List Assignment) (h : Nat) : List Assignment :=
  df.filter (fun r => r.heat == h)

/-- Size of one heat, `heat_df.groupby("Heat").size()` at key `h`. -/
def heatSize (df : List Assignment) (h : Nat) : Nat :=
  (fiber df h).length

/-- The (Car, Lane) pair of every row of the table. -/
def carLanePairs (df : List Assignment) : List (Car × Lane) :=
  df.map (fun r => (r.car, r.lane))

/-- `heat_df.groupby(["Heat", "Car"]).size().gt(1).any()`: some heat contains
the same car more than once. -/
def hasDupCarInHeat (df : List Assignment) : Bool :=
  df.any (fun r => 1 < df.countP (fun x => x.heat == r.heat && x.car == r.car))

/-- `heat_df.groupby(["Heat", "Lane"]).size().gt(1).any()`: some heat assigns
the same lane more than once. -/
def hasDupLaneInHeat (df : List Assignment) : Bool :=
  df.any (fun r => 1 < df.countP (fun x => x.heat == r.heat && x.lane == r.lane))

/-- `validate_heats` from heats_perfect.py (lines 32-126).  The Python sets
`valid = False` on each failed check and returns `valid`; the result is the
conjunction of the six checks.  Each `let` mirrors one groupby-based check. -/
def validate_heats (heat_df : List Assignment) (expected_races_per_car : Nat)
    (min_cars_per_heat : Nat := 2) (all_cars : Option (List Car) := none) : Bool :=
  -- duplicate (Car, Lane) combinations across the whole table
  let dupCarLane := (carLanePairs heat_df).any
    (fun p => 1 < (carLanePairs heat_df).count p)
  -- incorrect race counts per car
  let badRaceCounts := (heat_df.map (·.car)).any
    (fun c => (heat_df.map (·.car)).count c != expected_races_per_car)
  -- expected cars missing from the table
  let missingCars := match all_cars with
    | none => false
    | some cs => cs.any (fun c => !(heat_df.any (fun r => r.car == c)))
  -- heats with fewer than the minimum number of cars
  let smallHeat := heat_df.any (fun r => heatSize heat_df r.heat < min_cars_per_heat)
  !dupCarLane && !badRaceCounts && !missingCars &&
    !(hasDupCarInHeat heat_df) && !(hasDupLaneInHeat heat_df) && !smallHeat

/-- Swap the entries of a list at positions `i` and `j` (no-op out of range). -/
def listSwap {α : Type} (l : List α) (i j : Nat) : List α :=
  match l.get? i, l.get? j with
  | some a, some b => (l.set i b).set j a
  | _, _ => l

/-- `secure_shuffle` from race_utils.py (lines 33-47): Fisher-Yates over a copy
of the list, `for i in reversed(range(1, len)): j = randbelow(i + 1); swap`.
The draws of `secrets.randbelow(i + 1)` are supplied by the oracle `rand`;
`rand i % (i + 1)` realises an arbitrary admissible value. -/
def secure_shuffle {α : Type} (rand : Nat → Nat) (lst : List α) : List α :=
  (List.range' 1 (lst.length - 1)).reverse.foldl
    (fun acc i => listSwap acc i (rand i % (i + 1))) lst

/-- Lane labels `["A", ..., "H"][:num_lanes]` (heats_perfect.py line 192). -/
def laneLabels (num_lanes : Nat) : List Lane :=
  ["A", "B", "C", "D", "E", "F", "G", "H"].take num_lanes

/-- The run of an assignment row (its Car and Lane fields). -/
def toRun (a : Assignment) : Run :=
  ⟨a.car, a.lane⟩

/-- Run-pool builder of `generate_heats` (heats_perfect.py lines 194-205):
`runs_per_car` defaults to `num_lanes` and is clamped to `[2, num_lanes]`;
each car contributes the first `runs_per_car` entries of a shuffled copy of the
lane alphabet, and the flat pool is shuffled once more.  `randCar i` is the
oracle for the `i`-th car's lane shuffle, `randPool` for the pool shuffle. -/
def buildRunPool (entry_list : List Car) (num_lanes : Nat)
    (runs_per_car : Option Nat) (randCar : Nat → Nat → Nat)
    (randPool : Nat → Nat) : List Run :=
  let lane_labels := laneLabels num_lanes
  let rpc := max 2 (min (runs_per_car.getD num_lanes) num_lanes)
  let run_pool := (entry_list.enum).flatMap (fun p =>
    ((secure_shuffle (randCar p.1) lane_labels).take rpc).map
      (fun lane => Run.mk p.2 lane))
  secure_shuffle randPool run_pool

/-- The inner run-consuming loop of `generate_heats` (lines 213-225).  In the
Python both branches `pop(i)` without incrementing `i`, so the loop always
examines the head of the remaining pool and stops when the heat is full or the
pool is exhausted; `run_pool.extend(skipped_runs)` then appends the skipped
runs after the untouched tail.  Returns the accepted heat and that new pool. -/
def formHeatAux (num_lanes heat_num : Nat) (pool : List Run)
    (heat : List Assignment) (used_cars : List Car) (used_lanes : List Lane)
    (skipped : List Run) : List Assignment × List Run :=
  match pool with
  | [] => (heat, skipped)
  | run :: rest =>
    if num_lanes ≤ heat.length then (heat, (run :: rest) ++ skipped)
    else if !(used_cars.contains run.car) && !(used_lanes.contains run.lane) then
      formHeatAux num_lanes heat_num rest
        (heat ++ [⟨heat_num, run.car, run.lane⟩])
        (used_cars ++ [run.car]) (used_lanes ++ [run.lane]) skipped
    else
      formHeatAux num_lanes heat_num rest heat used_cars used_lanes (skipped ++ [run])

/-- One iteration of the outer `while run_pool:` loop of `generate_heats`
(lines 209-231): form a heat from the pool; keep it only if it has at least 2
accepted runs (`if len(heat) >= 2`), otherwise drop it and reshuffle what is
left of the pool (`run_pool = secure_shuffle(run_pool)`). -/
def outerStep (rand : Nat → Nat) (num_lanes heat_num : Nat) (pool : List Run) :
    Option (List Assignment) × List Run :=
  let fh := formHeatAux num_lanes heat_num pool [] [] [] []
  if 2 ≤ fh.1.length then (some fh.1, fh.2)
  else (none, secure_shuffle rand fh.2)

/-- The outer loop of `generate_heats` with explicit fuel; `k` numbers the
iterations for the reshuffle oracle.  Returns the kept heats in order together
with whatever pool remains when the fuel runs out (`[]` once the loop has
terminated); the heat counter `heat_num` advances only for kept heats. -/
def packAux (rand : Nat → Nat → Nat) (num_lanes : Nat) :
    Nat → List Run → Nat → Nat → List (List Assignment) × List Run
  | 0, pool, _, _ => ([], pool)
  | fuel + 1, pool, heat_num, k =>
    if pool.isEmpty then ([], pool)
    else
      match outerStep (rand k) num_lanes heat_num pool with
      | (some heat, pool') =>
        let rec_result := packAux rand num_lanes fuel pool' (heat_num + 1) (k + 1)
        (heat :: rec_result.1, rec_result.2)
      | (none, pool') => packAux rand num_lanes fuel pool' heat_num (k + 1)

/-- First-occurrence deduplication: the key order of a Python dict /
`pandas.unique`. -/
def uniqueList {α : Type} [DecidableEq α] : List α → List α
  | [] => []
  | a :: l => a :: uniqueList (l.filter (fun x => x != a))
termination_by l => l.length
decreasing_by
  simp only [List.length_cons]
  exact Nat.lt_succ_of_le (List.length_filter_le _ l)

/-- The distinct cars of a table, in first-occurrence order (the key set of
the `opponents` defaultdict built by `analyze_opponents`). -/
def distinctCars (df : List Assignment) : List Car :=
  uniqueList (df.map (·.car))

/-- The opponent set of car `c`: every other car that shares some heat with
`c` (race_utils.py 420-425), as a duplicate-free list. -/
def opponentsOf (df : List Assignment) (c : Car) : List Car :=
  uniqueList ((df.filter (fun r =>
    (!(r.car == c)) && df.any (fun x => x.car == c && x.heat == r.heat))).map (·.car))

/-- `analyze_opponents` (race_utils.py 377-425): the opponents dict as an
association list keyed by the distinct cars of the table. -/
def analyze_opponents (df : List Assignment) : List (Car × List Car) :=
  (distinctCars df).map (fun c => (c, opponentsOf df c))

/-- `opponent_fairness_score` (race_utils.py 428-475): population variance of
the per-car distinct-opponent counts.  Python computes in float; the embedding
uses `ℚ`.  (In `ℚ`, `x / 0 = 0`; Python would raise on an empty dict, which
only arises from an empty table.) -/
def opponent_fairness_score (opponents : List (Car × List Car)) : ℚ :=
  let counts := opponents.map (fun p => ((p.2.length : ℚ)))
  let avg := counts.sum / counts.length
  (counts.map (fun count => (count - avg) ^ 2)).sum / counts.length

/-- The fairness score of a table (`opponent_fairness_score(analyze_opponents(df))`). -/
def fairnessScore (df : List Assignment) : ℚ :=
  opponent_fairness_score (analyze_opponents df)

/-- Position of the first row satisfying `p` (`df.index[mask][0]`). -/
def firstIdx (p : Assignment → Bool) : List Assignment → Option Nat
  | [] => none
  | r :: t => if p r then some 0 else (firstIdx p t).map (· + 1)

/-- One trial of `optimize_opponent_fairness` (race_utils.py 551-571): draw
two heats and one lane; when both heats have an occupant in that lane and
neither occupant's car already appears in the other heat, exchange the two
`Car` values (the `.at[idx, "Car"]` writes). -/
def trialSwap (df : List Assignment) (h1 h2 : Nat) (lane : Lane) :
    List Assignment :=
  match firstIdx (fun r => r.heat == h1 && r.lane == lane) df,
        firstIdx (fun r => r.heat == h2 && r.lane == lane) df with
  | some i1, some i2 =>
    match df.get? i1, df.get? i2 with
    | some r1, some r2 =>
      let heat1_cars := (fiber df h1).map (·.car)
      let heat2_cars := (fiber df h2).map (·.car)
      if !(heat1_cars.contains r2.car) && !(heat2_cars.contains r1.car) then
        (df.set i1 { r1 with car := r2.car }).set i2 { r2 with car := r1.car }
      else df
    | _, _ => df
  | _, _ => df

/-- One iteration of the optimizer's loop: build the trial from the incumbent
and keep it only on strict improvement (`if trial_score < best_score`). -/
def optStep (best : List Assignment × ℚ) (ch : Nat × Nat × Lane) :
    List Assignment × ℚ :=
  let trial_df := trialSwap best.1 ch.1 ch.2.1 ch.2.2
  let trial_score := fairnessScore trial_df
  if trial_score < best.2 then (trial_df, trial_score) else best

/-- `optimize_opponent_fairness` (race_utils.py 478-583).  `choices` supplies
the random draws `(h1, h2, lane)` of each iteration (`random.sample` over the
table's heats, `random.choice` over its lanes); the iteration budget is
`choices.length`.  Returns the best table found. -/
def optimize_opponent_fairness (heats_df : List Assignment)
    (choices : List (Nat × Nat × Lane)) : List Assignment :=
  (choices.foldl optStep (heats_df, fairnessScore heats_df)).1

/-- Ascending (Heat, Lane, Car) row order, for the
`sort_values(by=["Heat", "Lane", "Car"])` resort after each relocation. -/
def rowLt (a b : Assignment) : Prop :=
  a.heat < b.heat ∨ (a.heat = b.heat ∧
    (compare a.lane b.lane = Ordering.lt ∨
      (a.lane = b.lane ∧ compare a.car b.car = Ordering.lt)))

instance rowLt_decidable : DecidableRel rowLt := fun a b => by
  unfold rowLt
  infer_instance

/-- `heats_df.sort_values(by=["Heat", "Lane", "Car"]).reset_index(drop=True)`
(race_utils.py 680-682); any correct sort models the pandas sort, whose
default quicksort leaves tie order unspecified. -/
def sortRows (df : List Assignment) : List Assignment :=
  List.insertionSort rowLt df

/-- The donor search of `rebalance_heats` (race_utils.py 660-683): scan the
original heat numbers for the first fully occupied donor heat (exactly
`num_lanes` rows) owning a row whose car and lane are both unused in the
target heat; return the position of the first such row in table order. -/
def findMove (df : List Assignment) (heat_numbers : List Nat)
    (num_lanes hn : Nat) (used_cars : List Car) (used_lanes : List Lane) :
    Option Nat :=
  heat_numbers.findSome? (fun dn =>
    if dn == hn then none
    else if heatSize df dn != num_lanes then none
    else firstIdx (fun r => r.heat == dn
      && !(used_cars.contains r.car) && !(used_lanes.contains r.lane)) df)

/-- Processing of one target heat in `rebalance_heats` (649-686): only heats
with exactly `num_lanes - 2` rows are rebalanced; at most one donor row is
reassigned to the target heat (`heats_df.at[idx, "Heat"] = heat_num`) and the
table is then resorted. -/
def processHeat (num_lanes : Nat) (heat_numbers : List Nat)
    (df : List Assignment) (hn : Nat) : List Assignment :=
  let current := fiber df hn
  if current.length != num_lanes - 2 then df
  else
    match findMove df heat_numbers num_lanes hn
        (current.map (·.car)) (current.map (·.lane)) with
    | none => df
    | some i =>
      match df.get? i with
      | none => df
      | some r => sortRows (df.set i { r with heat := hn })

/-- `rebalance_heats` (race_utils.py 586-693): the heat numbers are read once
from the original table (`heats_df["Heat"].unique()`, first-occurrence order)
and each is processed in turn against the evolving table. -/
def rebalance_heats (heats_df : List Assignment) (num_lanes : Nat) :
    List Assignment :=
  let heat_numbers := uniqueList (heats_df.map (·.heat))
  heat_numbers.foldl (processHeat num_lanes heat_numbers) heats_df

/-- `enumerate(xs, start=s)`. -/
def enumFromL {α : Type} : Nat → List α → List (Nat × α)
  | _, [] => []
  | s, a :: l => (s, a) :: enumFromL (s + 1) l

/-- The heads of a list of rows, when every row is nonempty. -/
def heads? {α : Type} : List (List α) → Option (List α)
  | [] => some []
  | [] :: _ => none
  | (a :: _) :: rest => (heads? rest).map (a :: ·)

/-- Python's variadic `zip(*rows)`: columns of the row list, truncated at the
shortest row (used by `_generate_small_group_heats`'s `zip(*car_rotations)`). -/
def zipStar {α : Type} : List (List α) → List (List α)
  | [] => []
  | r₀ :: rest =>
    match h : heads? (r₀ :: rest) with
    | none => []
    | some hds => hds :: zipStar ((r₀ :: rest).map (fun r => r.drop 1))
termination_by rows => (rows.headD []).length
decreasing_by
  simp only [List.map_cons, List.headD_cons]
  cases r₀ with
  | nil => simp [heads?] at h
  | cons a t => simp

/-- `_generate_small_group_heats` (heats_runoff.py 31-82): the `n` cyclic
rotations of the car list are transposed (`zip(*car_rotations)`) and each
column, enumerated from 1 as the heat number, is zipped against the first
`n` lane labels. -/
def _generate_small_group_heats (cars : List Car) (lane_labels : List Lane) :
    List Assignment :=
  let used_lanes := lane_labels.take cars.length
  let car_rotations := (List.range cars.length).map
    (fun i => cars.drop i ++ cars.take i)
  let lane_zips := zipStar car_rotations
  (enumFromL 1 lane_zips).flatMap (fun p =>
    (p.2.zip used_lanes).map (fun q => Assignment.mk p.1 q.1 q.2))

/-- Lane labels `[chr(ord("A") + i) for i in range(num_lanes)]`
(heats_runoff.py 142). -/
def laneLabelsRR (num_lanes : Nat) : List Lane :=
  (List.range num_lanes).map (fun i => (Char.ofNat (65 + i)).toString)

/-- `itertools.combinations(cars, 2)`: all unordered pairs, first component
earlier in the list. -/
def combinations2 {α : Type} : List α → List (α × α)
  | [] => []
  | x :: xs => (xs.map (fun y => (x, y))) ++ combinations2 xs

/-- Ascending string order for `sorted(heat_cars)`. -/
def carLt (a b : Car) : Prop :=
  compare a b = Ordering.lt

instance carLt_decidable : DecidableRel carLt := fun a b => by
  unfold carLt
  infer_instance

/-- `sorted(heat_cars)` (heats_runoff.py 172). -/
def sortCars (cars : List Car) : List Car :=
  List.insertionSort carLt cars

/-- One matchup of the greedy scan (heats_runoff.py 156-163): skip the pair
when one of its cars is already committed in this heat
(`if car1 in heat_cars or car2 in heat_cars: continue`) or two more cars no
longer fit (`if len(heat_cars) + 2 > num_lanes: continue`); otherwise commit
both cars and the pair. -/
def greedyStep (num_lanes : Nat) (acc : List Car × List (Car × Car))
    (p : Car × Car) : List Car × List (Car × Car) :=
  if p.1 ∈ acc.1 ∨ p.2 ∈ acc.1 then acc
  else if num_lanes < acc.1.length + 2 then acc
  else (acc.1 ++ [p.1, p.2], acc.2 ++ [p])

/-- The greedy matchup scan of one heat: fold `greedyStep` over the remaining
matchups starting from an empty heat. -/
def greedyScan (num_lanes : Nat) (unmatched : List (Car × Car)) :
    List Car × List (Car × Car) :=
  unmatched.foldl (greedyStep num_lanes) ([], [])

/-- The heat-car selection including the forced fallback
(heats_runoff.py 156-168): when the greedy scan commits fewer than 2 cars, the
first remaining matchup (`list(unmatched)[0]`) is force-added
(`heat_cars.update(leftover)`). -/
def rrSelect (num_lanes : Nat) (unmatched : List (Car × Car)) :
    List Car × List (Car × Car) :=
  let gp := greedyScan num_lanes unmatched
  if gp.1.length < 2 then
    match unmatched with
    | [] => gp
    | p :: _ =>
      let hc1 := if p.1 ∈ gp.1 then gp.1 else gp.1 ++ [p.1]
      let hc2 := if p.2 ∈ hc1 then hc1 else hc1 ++ [p.2]
      (hc2, gp.2 ++ [p])
  else gp

/-- The `while unmatched:` loop of `generate_round_robin_heats`
(heats_runoff.py 152-174) with explicit fuel: each iteration selects a heat's
cars and matchups, removes the used matchups, sorts the committed cars and
zips them against a freshly shuffled prefix of the lane labels.  Returns the
rows and whatever matchups remain when the fuel runs out. -/
def rrAux (rand : Nat → Nat → Nat) (num_lanes : Nat) (lane_labels : List Lane) :
    Nat → List (Car × Car) → Nat → List Assignment × List (Car × Car)
  | 0, unmatched, _ => ([], unmatched)
  | fuel + 1, unmatched, heat_num =>
    if unmatched.isEmpty then ([], unmatched)
    else
      let sel := rrSelect num_lanes unmatched
      let unmatched' := unmatched.filter (fun q => q ∉ sel.2)
      let assigned_lanes := (secure_shuffle (rand heat_num) lane_labels).take
        sel.1.length
      let rows := ((sortCars sel.1).zip assigned_lanes).map
        (fun q => Assignment.mk heat_num q.1 q.2)
      let rest := rrAux rand num_lanes lane_labels fuel unmatched' (heat_num + 1)
      (rows ++ rest.1, rest.2)

/-- `generate_round_robin_heats` (heats_runoff.py 85-176): small groups use
the deterministic lane rotation, larger groups pack matchups greedily until
every pair has raced.  The Python iterates `sorted(unmatched)`, which on a set
of (mutually incomparable) frozensets returns the set's arbitrary but fixed
iteration order; the embedding fixes the `itertools.combinations` order, and
the theorems hold for every order.  `rand h` supplies heat `h`'s lane
shuffle. -/
def generate_round_robin_heats (rand : Nat → Nat → Nat) (cars : List Car)
    (num_lanes : Nat) : List Assignment :=
  let lane_labels := laneLabelsRR num_lanes
  if cars.length ≤ num_lanes then
    _generate_small_group_heats cars lane_labels
  else
    let matchups := combinations2 cars
    (rrAux rand num_lanes lane_labels matchups.length matchups 1).1

/-- The per-group attempt loop shared by the Perfect-N driver
(heats_perfect.py 286-325, `for attempt in range(200): ... else: print FAIL`)
and `process_class_group` (heats_runoff.py 404-414): attempt `i` generates a
candidate table `gen i` (the generator together with its randomness is the
oracle); the first candidate accepted by the validator is kept, and exhausting
every attempt yields `none` (the for-else branch: a printed report, no raised
exception, no output table for the group). -/
def attemptLoop (gen : Nat → List Assignment) (valid : List Assignment → Bool)
    (attempts : Nat) : Option (List Assignment) :=
  (List.range attempts).findSome? (fun i =>
    let df := gen i
    if valid df then some df else none)

/-- The driver's outer loop over competitor groups (heats_perfect.py 258-325):
each group `g` (identified here by an index) runs its own attempt loop on its
own generator oracle `gen g`, and the per-group outcome is recorded; a failed
group contributes `(g, none)` and the loop moves on to the next group. -/
def processGroups (gen : Nat → Nat → List Assignment)
    (valid : List Assignment → Bool) (attempts : Nat) (groups : List Nat) :
    List (Nat × Option (List Assignment)) :=
  groups.map (fun g => (g, attemptLoop (gen g) valid attempts))

theorem count_fiber_car (df : List Assignment) (h : Nat) (c : Car) :
    ((fiber df h).map (·.car)).count c
      = df.countP (fun x => x.heat == h && x.car == c) := by
  unfold fiber
  rw [List.count_eq_countP, List.countP_map, List.countP_filter]
  congr 1
  funext x
  simp [Bool.and_comm]

theorem count_fiber_lane (df : List Assignment) (h : Nat) (l : Lane) :
    ((fiber df h).map (·.lane)).count l
      = df.countP (fun x => x.heat == h && x.lane == l) := by
  unfold fiber
  rw [List.count_eq_countP, List.countP_map, List.countP_filter]
  congr 1
  funext x
  simp [Bool.and_comm]

theorem nodup_iff_forall_count_le_one {α : Type} [BEq α] [LawfulBEq α] {l : List α} :
    l.Nodup ↔ ∀ a, List.count a l ≤ 1 := by
  induction l with
  | nil => simp
  | cons x xs ih =>
    simp only [List.nodup_cons, List.count_cons]
    constructor
    · rintro ⟨hx, hnd⟩ a
      rcases eq_or_ne a x with rfl | hax
      · have h0 : List.count a xs = 0 := by
          rw [List.count_eq_zero]
          exact hx
        simp [h0]
      · have := ih.mp hnd a
        rw [if_neg (by simpa using Ne.symm hax)]
        omega
    · intro h
      refine ⟨?_, ih.mpr fun a => ?_⟩
      · intro hmem
        have hc := h x
        rw [if_pos (by simp)] at hc
        have hne : List.count x xs ≠ 0 := fun h0 => (List.count_eq_zero.mp h0) hmem
        omega
      · have := h a
        omega

theorem any_count_eq_false_iff_nodup {α : Type} [BEq α] [LawfulBEq α] (l : List α) :
    (l.any (fun p => decide (1 < l.count p))) = false ↔ l.Nodup := by
  rw [List.any_eq_false, nodup_iff_forall_count_le_one]
  constructor
  · intro h a
    by_cases ha : a ∈ l
    · have := h a ha
      simp only [decide_eq_true_eq, not_lt] at this
      exact this
    · simp [List.count_eq_zero_of_not_mem ha]
  · intro h a ha
    simp only [decide_eq_true_eq, not_lt]
    exact h a

theorem any_raceCount_eq_false_iff (l : List Car) (e : Nat) :
    (l.any (fun c => l.count c != e)) = false ↔ ∀ c ∈ l, l.count c = e := by
  rw [List.any_eq_false]
  constructor
  · intro h c hc
    have := h c hc
    simpa using this
  · intro h c hc
    simpa using h c hc

theorem any_missing_eq_false_iff (cs : List Car) (df : List Assignment) :
    (cs.any (fun c => !(df.any (fun r => r.car == c)))) = false ↔
      ∀ c ∈ cs, ∃ r ∈ df, r.car = c := by
  rw [List.any_eq_false]
  constructor
  · intro h c hc
    have := h c hc
    simpa using this
  · intro h c hc
    simpa using h c hc

theorem any_dupCarInHeat_eq_false_iff (df : List Assignment) :
    hasDupCarInHeat df = false ↔
      ∀ h, ((fiber df h).map (·.car)).Nodup := by
  rw [hasDupCarInHeat, List.any_eq_false]
  constructor
  · intro h4 h
    rw [nodup_iff_forall_count_le_one]
    intro c
    rw [count_fiber_car]
    by_cases hc : ∃ r ∈ df, r.heat = h ∧ r.car = c
    · obtain ⟨r, hr, hrh, hrc⟩ := hc
      have := h4 r hr
      simp only [decide_eq_true_eq, not_lt] at this
      subst hrh hrc
      exact this
    · push_neg at hc
      rw [List.countP_eq_zero.mpr]
      · omega
      · intro x hx
        simp only [Bool.and_eq_true, beq_iff_eq]
        rintro ⟨hh, hcc⟩
        exact (hc x hx hh) hcc
  · intro g4 r hr
    simp only [decide_eq_true_eq, not_lt]
    have := (nodup_iff_forall_count_le_one.mp (g4 r.heat)) r.car
    rw [count_fiber_car] at this
    exact this

theorem any_dupLaneInHeat_eq_false_iff (df : List Assignment) :
    hasDupLaneInHeat df = false ↔
      ∀ h, ((fiber df h).map (·.lane)).Nodup := by
  rw [hasDupLaneInHeat, List.any_eq_false]
  constructor
  · intro h5 h
    rw [nodup_iff_forall_count_le_one]
    intro l
    rw [count_fiber_lane]
    by_cases hc : ∃ r ∈ df, r.heat = h ∧ r.lane = l
    · obtain ⟨r, hr, hrh, hrl⟩ := hc
      have := h5 r hr
      simp only [decide_eq_true_eq, not_lt] at this
      subst hrh hrl
      exact this
    · push_neg at hc
      rw [List.countP_eq_zero.mpr]
      · omega
      · intro x hx
        simp only [Bool.and_eq_true, beq_iff_eq]
        rintro ⟨hh, hll⟩
        exact (hc x hx hh) hll
  · intro g5 r hr
    simp only [decide_eq_true_eq, not_lt]
    have := (nodup_iff_forall_count_le_one.mp (g5 r.heat)) r.lane
    rw [count_fiber_lane] at this
    exact this

theorem any_smallHeat_eq_false_iff (df : List Assignment) (minCars : Nat) :
    (df.any (fun r => decide (heatSize df r.heat < minCars))) = false ↔
      ∀ h ∈ df.map (·.heat), minCars ≤ heatSize df h := by
  rw [List.any_eq_false]
  constructor
  · intro h6 h hh
    simp only [List.mem_map] at hh
    obtain ⟨r, hr, hrh⟩ := hh
    have := h6 r hr
    simp only [decide_eq_true_eq, not_lt] at this
    subst hrh
    exact this
  · intro g6 r hr
    simp only [decide_eq_true_eq, not_lt]
    exact g6 r.heat (List.mem_map.mpr ⟨r, hr, rfl⟩)

theorem listSwap_length {α : Type} (l : List α) (i j : Nat) :
    (listSwap l i j).length = l.length := by
  unfold listSwap
  cases hi : l.get? i <;> cases hj : l.get? j <;> simp

theorem set_append_singleton_perm {α : Type} (l : List α) (i : Nat) (a b : α)
    (h : l.get? i = some a) : ((l.set i b) ++ [a]).Perm (l ++ [b]) := by
  induction l generalizing i with
  | nil => simp at h
  | cons x t ih =>
    cases i with
    | zero =>
      obtain rfl : x = a := by simpa using h
      simp only [List.set_cons_zero, List.cons_append]
      exact (((List.perm_append_singleton x t).cons b).trans
        (List.Perm.swap x b t)).trans (((List.perm_append_singleton b t).symm).cons x)
    | succ i' =>
      simp only [List.set_cons_succ, List.cons_append]
      exact (ih i' (by simpa using h)).cons x

theorem listSwap_perm {α : Type} (l : List α) (i j : Nat) :
    (listSwap l i j).Perm l := by
  unfold listSwap
  cases hi : l.get? i with
  | none => simp
  | some a =>
    cases hj : l.get? j with
    | none => simp
    | some b =>
      have hj' : (l.set i b).get? j = some b := by
        rcases eq_or_ne i j with rfl | hne
        · rw [List.get?_eq_getElem?] at hi ⊢
          rw [List.getElem?_set_self]
          · rw [List.getElem?_eq_some] at hi
            exact hi.1
        · rw [List.get?_eq_getElem?] at hj ⊢
          rw [List.getElem?_set_ne hne]
          exact hj
      have p1 := set_append_singleton_perm (l.set i b) j b a hj'
      have p2 := set_append_singleton_perm l i a b hi
      have h3 : (b :: ((l.set i b).set j a)).Perm (b :: l) :=
        ((List.perm_append_singleton b _).symm.trans (p1.trans p2)).trans
          (List.perm_append_singleton b l)
      exact h3.cons_inv

/-- C1: `validate_heats` returns `True` precisely when (a) no (Car, Lane) pair
repeats across the table, (b) every car appearing in the table appears exactly
`expected_races_per_car` times, (c) when an expected car set is supplied no car
from it is absent, (d) no car repeats within a heat, (e) no lane repeats within
a heat, and (f) every heat has at least `min_cars_per_heat` rows.  Being a
total boolean function, it never raises on an invalid candidate table. -/
theorem C1_validate_heats_iff (df : List Assignment) (expected minCars : Nat)
    (allCars : Option (List Car)) :
    validate_heats df expected minCars allCars = true ↔
      ((carLanePairs df).Nodup ∧
       (∀ c ∈ df.map (·.car), (df.map (·.car)).count c = expected) ∧
       (∀ cs, allCars = some cs → ∀ c ∈ cs, ∃ r ∈ df, r.car = c) ∧
       (∀ h, ((fiber df h).map (·.car)).Nodup) ∧
       (∀ h, ((fiber df h).map (·.lane)).Nodup) ∧
       (∀ h ∈ df.map (·.heat), minCars ≤ heatSize df h)) := by
  unfold validate_heats
  cases allCars with
  | none =>
    simp only [Bool.and_eq_true, Bool.not_eq_true']
    rw [any_count_eq_false_iff_nodup, any_raceCount_eq_false_iff,
      any_dupCarInHeat_eq_false_iff, any_dupLaneInHeat_eq_false_iff,
      any_smallHeat_eq_false_iff]
    constructor
    · rintro ⟨⟨⟨⟨⟨h1, h2⟩, -⟩, h4⟩, h5⟩, h6⟩
      exact ⟨h1, h2, by simp, h4, h5, h6⟩
    · rintro ⟨g1, g2, -, g4, g5, g6⟩
      exact ⟨⟨⟨⟨⟨g1, g2⟩, trivial⟩, g4⟩, g5⟩, g6⟩
  | some cs =>
    simp only [Bool.and_eq_true, Bool.not_eq_true']
    rw [any_count_eq_false_iff_nodup, any_raceCount_eq_false_iff,
      any_missing_eq_false_iff, any_dupCarInHeat_eq_false_iff,
      any_dupLaneInHeat_eq_false_iff, any_smallHeat_eq_false_iff]
    constructor
    · rintro ⟨⟨⟨⟨⟨h1, h2⟩, h3⟩, h4⟩, h5⟩, h6⟩
      refine ⟨h1, h2, ?_, h4, h5, h6⟩
      intro cs' hcs'
      obtain rfl : cs = cs' := by injection hcs'
      exact h3
    · rintro ⟨g1, g2, g3, g4, g5, g6⟩
      exact ⟨⟨⟨⟨⟨g1, g2⟩, g3 cs rfl⟩, g4⟩, g5⟩, g6⟩

theorem foldl_listSwap_perm {α : Type} (is : List Nat) (f : Nat → Nat) (l : List α) :
    (is.foldl (fun acc i => listSwap acc i (f i)) l).Perm l := by
  induction is generalizing l with
  | nil => exact List.Perm.refl l
  | cons i is ih =>
    simp only [List.foldl_cons]
    exact (ih (listSwap l i (f i))).trans (listSwap_perm l i (f i))

theorem secure_shuffle_perm {α : Type} (rand : Nat → Nat) (lst : List α) :
    (secure_shuffle rand lst).Perm lst :=
  foldl_listSwap_perm _ _ lst

theorem secure_shuffle_length {α : Type} (rand : Nat → Nat) (lst : List α) :
    (secure_shuffle rand lst).length = lst.length :=
  (secure_shuffle_perm rand lst).length_eq

theorem formHeatAux_length (n hn : Nat) (pool : List Run)
    (heat : List Assignment) (uc : List Car) (ul : List Lane) (sk : List Run) :
    (formHeatAux n hn pool heat uc ul sk).1.length
        + (formHeatAux n hn pool heat uc ul sk).2.length
      = heat.length + pool.length + sk.length := by
  induction pool generalizing heat uc ul sk with
  | nil => simp [formHeatAux]
  | cons run rest ih =>
    rw [formHeatAux]
    by_cases h1 : n ≤ heat.length
    · simp only [if_pos h1]
      simp
      omega
    · rw [if_neg h1]
      by_cases h2 : (!(uc.contains run.car) && !(ul.contains run.lane)) = true
      · rw [if_pos h2]
        have := ih (heat ++ [⟨hn, run.car, run.lane⟩])
          (uc ++ [run.car]) (ul ++ [run.lane]) sk
        simp at this ⊢
        omega
      · rw [if_neg h2]
        have := ih heat uc ul (sk ++ [run])
        simp at this ⊢
        omega

theorem formHeatAux_heat_mono (n hn : Nat) (pool : List Run)
    (heat : List Assignment) (uc : List Car) (ul : List Lane) (sk : List Run) :
    heat.length ≤ (formHeatAux n hn pool heat uc ul sk).1.length := by
  induction pool generalizing heat uc ul sk with
  | nil => simp [formHeatAux]
  | cons run rest ih =>
    rw [formHeatAux]
    by_cases h1 : n ≤ heat.length
    · simp [if_pos h1]
    · rw [if_neg h1]
      by_cases h2 : (!(uc.contains run.car) && !(ul.contains run.lane)) = true
      · rw [if_pos h2]
        have := ih (heat ++ [⟨hn, run.car, run.lane⟩])
          (uc ++ [run.car]) (ul ++ [run.lane]) sk
        simp at this
        omega
      · rw [if_neg h2]
        exact ih heat uc ul (sk ++ [run])

theorem formHeatAux_first_accepted (n hn : Nat) (pool : List Run)
    (hp : pool ≠ []) (h1 : 1 ≤ n) :
    1 ≤ (formHeatAux n hn pool [] [] [] []).1.length := by
  cases pool with
  | nil => exact absurd rfl hp
  | cons run rest =>
    rw [formHeatAux]
    rw [if_neg (by simp; omega)]
    rw [if_pos (by simp)]
    have := formHeatAux_heat_mono n hn rest [⟨hn, run.car, run.lane⟩]
      [run.car] [run.lane] []
    simpa using this

theorem coe_append_ms {α : Type} (l₁ l₂ : List α) :
    ((l₁ ++ l₂ : List α) : Multiset α) = ↑l₁ + ↑l₂ := rfl

theorem coe_cons_ms {α : Type} (a : α) (l : List α) :
    ((a :: l : List α) : Multiset α) = {a} + ↑l := rfl

theorem coe_nil_ms {α : Type} : (([] : List α) : Multiset α) = 0 := rfl

theorem toRun_row (hn : Nat) (c : Car) (l : Lane) :
    toRun ⟨hn, c, l⟩ = ⟨c, l⟩ := rfl

theorem run_eta (r : Run) : Run.mk r.car r.lane = r := rfl

theorem formHeatAux_multiset (n hn : Nat) (pool : List Run)
    (heat : List Assignment) (uc : List Car) (ul : List Lane) (sk : List Run) :
    (((formHeatAux n hn pool heat uc ul sk).1.map toRun : List Run) : Multiset Run)
        + ((formHeatAux n hn pool heat uc ul sk).2 : Multiset Run)
      = ((heat.map toRun : List Run) : Multiset Run) + (pool : Multiset Run)
        + (sk : Multiset Run) := by
  induction pool generalizing heat uc ul sk with
  | nil =>
    simp only [formHeatAux, coe_nil_ms]
    abel
  | cons run rest ih =>
    rw [formHeatAux]
    by_cases h1 : n ≤ heat.length
    · rw [if_pos h1]
      simp only [coe_append_ms, coe_cons_ms]
      abel
    · rw [if_neg h1]
      by_cases h2 : (!(uc.contains run.car) && !(ul.contains run.lane)) = true
      · rw [if_pos h2]
        rw [ih]
        simp only [List.map_append, List.map_cons, List.map_nil, toRun_row,
          run_eta, coe_append_ms, coe_cons_ms, coe_nil_ms]
        abel
      · rw [if_neg h2]
        rw [ih]
        simp only [coe_append_ms, coe_cons_ms, coe_nil_ms]
        abel

theorem outerStep_length_lt (rand : Nat → Nat) (n hn : Nat) (pool : List Run)
    (hp : pool ≠ []) (h1 : 1 ≤ n) :
    ((outerStep rand n hn pool).2).length < pool.length := by
  unfold outerStep
  have hlen := formHeatAux_length n hn pool [] [] [] []
  have hne := formHeatAux_first_accepted n hn pool hp h1
  by_cases h : 2 ≤ (formHeatAux n hn pool [] [] [] []).1.length
  · rw [if_pos h]
    dsimp only
    simp at hlen
    omega
  · rw [if_neg h]
    dsimp only
    rw [secure_shuffle_length]
    simp at hlen
    omega

theorem packAux_pool_empty (rand : Nat → Nat → Nat) (n : Nat) (h2 : 2 ≤ n) :
    ∀ (fuel : Nat) (pool : List Run) (hn k : Nat), pool.length ≤ fuel →
      (packAux rand n fuel pool hn k).2 = [] := by
  intro fuel
  induction fuel with
  | zero =>
    intro pool hn k h
    have hnil : pool = [] := by
      cases pool with
      | nil => rfl
      | cons a l => simp at h
    subst hnil
    rfl
  | succ fuel ih =>
    intro pool hn k h
    rw [packAux]
    by_cases hp : pool.isEmpty
    · rw [if_pos hp]
      simpa [List.isEmpty_iff] using hp
    · rw [if_neg hp]
      have hpne : pool ≠ [] := by
        simpa [List.isEmpty_iff] using hp
      have hdec := outerStep_length_lt (rand k) n hn pool hpne (by omega)
      cases hout : outerStep (rand k) n hn pool with
      | mk o pool' =>
        rw [hout] at hdec
        cases o with
        | some heat =>
          simp only [hout]
          exact ih pool' (hn + 1) (k + 1) (by simp at hdec; omega)
        | none =>
          simp only [hout]
          exact ih pool' hn (k + 1) (by simp at hdec; omega)

/-- C8: the Perfect-N heat packer terminates for every finite run pool: with
fuel equal to the pool size the outer loop always ends with an empty pool,
because every outer iteration strictly decreases the pool size (second
conjunct) — for any pool, hence for any car list and `runs_per_car`, whenever
`num_lanes ≥ 2`.  (Kept heats remove at least 2 runs; a discarded under-sized
heat still removes its single accepted run.) -/
theorem C8_packer_terminates (rand : Nat → Nat → Nat) (num_lanes : Nat)
    (h2 : 2 ≤ num_lanes) (pool : List Run) (heat_num k : Nat) :
    (packAux rand num_lanes pool.length pool heat_num k).2 = [] ∧
      (∀ (r : Nat → Nat) (hn : Nat) (p : List Run), p ≠ [] →
        ((outerStep r num_lanes hn p).2).length < p.length) :=
  ⟨packAux_pool_empty rand num_lanes h2 pool.length pool heat_num k le_rfl,
   fun r hn p hp => outerStep_length_lt r num_lanes hn p hp (by omega)⟩

theorem C8_packer_terminates_witness :
    2 ≤ 4 ∧
      ((packAux (fun _ _ => 0) 4 ([Run.mk "A" "A", Run.mk "B" "B"].length)
          [Run.mk "A" "A", Run.mk "B" "B"] 1 0).2 = [] ∧
        (∀ (r : Nat → Nat) (hn : Nat) (p : List Run), p ≠ [] →
          ((outerStep r 4 hn p).2).length < p.length)) :=
  ⟨by decide, C8_packer_terminates (fun _ _ => 0) 4 (by decide)
    [Run.mk "A" "A", Run.mk "B" "B"] 1 0⟩

/-- C5 counterexample: with pool `[("A","A"), ("A","B")]` and 4 lanes, the
formed heat accepts exactly one run (fewer than 2), yet the accepted run
`("A","A")` is NOT returned to the pool (`run_pool` keeps only the skipped
run `("A","B")`), and the whole packing yields no heats at all — both run
obligations are lost.  This refutes the claim that an under-sized heat's
accepted runs are returned to the run pool. -/
theorem C5_counterexample :
    ((formHeatAux 4 1 [Run.mk "A" "A", Run.mk "A" "B"] [] [] [] []).1).length = 1 ∧
      Run.mk "A" "A" ∉ (outerStep (fun _ => 0) 4 1 [Run.mk "A" "A", Run.mk "A" "B"]).2 ∧
      (packAux (fun _ _ => 0) 4 2 [Run.mk "A" "A", Run.mk "A" "B"] 1 0).1 = [] := by
  decide

/-- C5 (amended): when a formed heat has fewer than 2 accepted runs, the heat
is discarded and the new pool is a reshuffle of only the skipped runs; the
accepted runs are removed from circulation (dropped heat's runs plus new pool
equal the old pool as multisets), i.e. their obligations are lost rather than
returned — the loss is only caught by the later validation retry. -/
theorem C5_undersized_heat_runs_dropped (rand : Nat → Nat)
    (num_lanes heat_num : Nat) (pool : List Run)
    (hlt : ((formHeatAux num_lanes heat_num pool [] [] [] []).1).length < 2) :
    outerStep rand num_lanes heat_num pool
        = (none,
            secure_shuffle rand (formHeatAux num_lanes heat_num pool [] [] [] []).2) ∧
      (((formHeatAux num_lanes heat_num pool [] [] [] []).1.map toRun
          : List Run) : Multiset Run)
          + ((outerStep rand num_lanes heat_num pool).2 : Multiset Run)
        = (pool : Multiset Run) := by
  have heq : outerStep rand num_lanes heat_num pool
      = (none,
          secure_shuffle rand (formHeatAux num_lanes heat_num pool [] [] [] []).2) := by
    unfold outerStep
    rw [if_neg (by omega)]
  refine ⟨heq, ?_⟩
  rw [heq]
  dsimp only
  have hms := formHeatAux_multiset num_lanes heat_num pool [] [] [] []
  have hperm : ((secure_shuffle rand
        (formHeatAux num_lanes heat_num pool [] [] [] []).2 : List Run) : Multiset Run)
      = ((formHeatAux num_lanes heat_num pool [] [] [] []).2 : Multiset Run) :=
    Multiset.coe_eq_coe.mpr (secure_shuffle_perm _ _)
  rw [hperm]
  simpa using hms

theorem C5_undersized_heat_runs_dropped_witness :
    (((formHeatAux 4 1 [Run.mk "A" "A", Run.mk "A" "B"] [] [] [] []).1).length < 2) ∧
      (outerStep (fun _ => 0) 4 1 [Run.mk "A" "A", Run.mk "A" "B"]
          = (none,
              secure_shuffle (fun _ => 0)
                (formHeatAux 4 1 [Run.mk "A" "A", Run.mk "A" "B"] [] [] [] []).2) ∧
        (((formHeatAux 4 1 [Run.mk "A" "A", Run.mk "A" "B"] [] [] [] []).1.map toRun
            : List Run) : Multiset Run)
            + ((outerStep (fun _ => 0) 4 1 [Run.mk "A" "A", Run.mk "A" "B"]).2
              : Multiset Run)
          = ([Run.mk "A" "A", Run.mk "A" "B"] : Multiset Run)) :=
  ⟨by decide, C5_undersized_heat_runs_dropped (fun _ => 0) 4 1
    [Run.mk "A" "A", Run.mk "A" "B"] (by decide)⟩

theorem optStep_invariant (b : List Assignment × ℚ) (ch : Nat × Nat × Lane)
    (hb : b.2 = fairnessScore b.1) :
    (optStep b ch).2 = fairnessScore (optStep b ch).1 ∧ (optStep b ch).2 ≤ b.2 := by
  simp only [optStep]
  split
  next h => exact ⟨rfl, le_of_lt h⟩
  next h => exact ⟨hb, le_rfl⟩

theorem optimize_loop_invariant (cs : List (Nat × Nat × Lane)) :
    ∀ b : List Assignment × ℚ, b.2 = fairnessScore b.1 →
      (cs.foldl optStep b).2 = fairnessScore (cs.foldl optStep b).1 ∧
        (cs.foldl optStep b).2 ≤ b.2 := by
  induction cs with
  | nil => exact fun b hb => ⟨hb, le_rfl⟩
  | cons c cs ih =>
    intro b hb
    simp only [List.foldl_cons]
    obtain ⟨h1, h2⟩ := optStep_invariant b c hb
    obtain ⟨g1, g2⟩ := ih _ h1
    exact ⟨g1, g2.trans h2⟩

/-- C4: the opponent-fairness score (population variance of the per-car
distinct-opponent counts) of the table returned by
`optimize_opponent_fairness` is at most the score of its input table, for
every input table and every iteration budget ≥ 0 (any list of random draws):
the incumbent is replaced only on strict improvement and its score is always
the score of the incumbent table. -/
theorem C4_optimizer_monotone (df : List Assignment)
    (choices : List (Nat × Nat × Lane)) :
    fairnessScore (optimize_opponent_fairness df choices) ≤ fairnessScore df := by
  obtain ⟨h1, h2⟩ := optimize_loop_invariant choices (df, fairnessScore df) rfl
  unfold optimize_opponent_fairness
  rw [← h1]
  exact h2

theorem firstIdx_found (p : Assignment → Bool) :
    ∀ (l : List Assignment) (i : Nat) (a : Assignment),
      firstIdx p l = some i → l.get? i = some a → p a = true := by
  intro l
  induction l with
  | nil => intro i a h; exact Option.noConfusion h
  | cons x t ih =>
    intro i a h hg
    rw [firstIdx] at h
    by_cases hp : p x
    · rw [if_pos hp] at h
      obtain rfl : (0 : Nat) = i := by injection h
      obtain rfl : x = a := by simpa using hg
      exact hp
    · rw [if_neg hp] at h
      cases hfi : firstIdx p t with
      | none => rw [hfi] at h; simp at h
      | some j =>
        rw [hfi] at h
        simp only [Option.map_some'] at h
        obtain rfl : j + 1 = i := by injection h
        exact ih j a hfi (by simpa using hg)

theorem set_same {α : Type} (l : List α) (i : Nat) (a : α) (h : l.get? i = some a) :
    l.set i a = l := by
  apply List.ext_getElem?
  intro j
  rcases eq_or_ne i j with rfl | hne
  · rw [List.get?_eq_getElem?] at h
    rw [List.getElem?_set_self (List.getElem?_eq_some.mp h).1]
    exact h.symm
  · exact List.getElem?_set_ne hne

theorem fiber_cons (x : Assignment) (t : List Assignment) (hh : Nat) :
    fiber (x :: t) hh = if x.heat = hh then x :: fiber t hh else fiber t hh := by
  by_cases hx : x.heat = hh <;> simp [fiber, List.filter_cons, hx]

theorem coe_map_ms {α β : Type} (f : α → β) (l : List α) :
    Multiset.map f (l : Multiset α) = ((l.map f : List β) : Multiset β) := rfl

theorem fiber_set (df : List Assignment) (i : Nat) (r r' : Assignment) (hh : Nat)
    (h : df.get? i = some r) :
    ((fiber (df.set i r') hh : List Assignment) : Multiset Assignment)
        + (if r.heat = hh then ({r} : Multiset Assignment) else 0)
      = ((fiber df hh : List Assignment) : Multiset Assignment)
        + (if r'.heat = hh then ({r'} : Multiset Assignment) else 0) := by
  induction df generalizing i with
  | nil => simp at h
  | cons x t ih =>
    cases i with
    | zero =>
      obtain rfl : x = r := by simpa using h
      rw [List.set_cons_zero, fiber_cons, fiber_cons]
      by_cases hr' : r'.heat = hh <;> by_cases hr : x.heat = hh
      · simp only [if_pos hr', if_pos hr, coe_cons_ms]
        abel
      · simp only [if_pos hr', if_neg hr, coe_cons_ms]
        abel
      · simp only [if_neg hr', if_pos hr, coe_cons_ms]
        abel
      · simp only [if_neg hr', if_neg hr, coe_cons_ms]
    | succ i' =>
      have ihh := ih i' (by simpa using h)
      rw [List.set_cons_succ, fiber_cons, fiber_cons]
      by_cases hx : x.heat = hh
      · rw [if_pos hx, if_pos hx, coe_cons_ms, coe_cons_ms, add_assoc, ihh,
          ← add_assoc]
      · rw [if_neg hx, if_neg hx]
        exact ihh

theorem mem_fiber_iff (r : Assignment) (df : List Assignment) (hh : Nat) :
    r ∈ fiber df hh ↔ r ∈ df ∧ r.heat = hh := by
  simp [fiber, List.mem_filter]

theorem trialSwap_cases (df : List Assignment) (h1 h2 : Nat) (lane : Lane) :
    trialSwap df h1 h2 lane = df ∨
      ∃ i1 i2 r1 r2,
        df.get? i1 = some r1 ∧ df.get? i2 = some r2 ∧
        r1.heat = h1 ∧ r1.lane = lane ∧ r2.heat = h2 ∧ r2.lane = lane ∧
        ((fiber df h1).map (·.car)).contains r2.car = false ∧
        ((fiber df h2).map (·.car)).contains r1.car = false ∧
        trialSwap df h1 h2 lane
          = (df.set i1 { r1 with car := r2.car }).set i2 { r2 with car := r1.car } := by
  unfold trialSwap
  cases hf1 : firstIdx (fun r => r.heat == h1 && r.lane == lane) df with
  | none => exact Or.inl rfl
  | some i1 =>
    cases hf2 : firstIdx (fun r => r.heat == h2 && r.lane == lane) df with
    | none => exact Or.inl rfl
    | some i2 =>
      dsimp only
      cases hg1 : df.get? i1 with
      | none => exact Or.inl rfl
      | some r1 =>
        cases hg2 : df.get? i2 with
        | none => exact Or.inl rfl
        | some r2 =>
          dsimp only
          by_cases hc : (!(((fiber df h1).map (·.car)).contains r2.car)
              && !(((fiber df h2).map (·.car)).contains r1.car)) = true
          · rw [if_pos hc]
            have e1 : (r1.heat == h1 && r1.lane == lane) = true :=
              firstIdx_found _ df i1 r1 hf1 hg1
            have e2 : (r2.heat == h2 && r2.lane == lane) = true :=
              firstIdx_found _ df i2 r2 hf2 hg2
            simp only [Bool.and_eq_true, beq_iff_eq] at e1 e2
            simp only [Bool.and_eq_true, Bool.not_eq_true'] at hc
            exact Or.inr ⟨i1, i2, r1, r2, hg1, hg2, e1.1, e1.2, e2.1, e2.2,
              hc.1, hc.2, rfl⟩
          · rw [if_neg hc]
            exact Or.inl rfl

theorem nodup_map_car_of_multiset {L : List Assignment}
    (h : (Multiset.map (fun r : Assignment => r.car) (L : Multiset Assignment)).Nodup) :
    (L.map (·.car)).Nodup := by
  rwa [coe_map_ms, Multiset.coe_nodup] at h

theorem multiset_nodup_map_car (L : List Assignment)
    (h : (L.map (·.car)).Nodup) :
    (Multiset.map (fun r : Assignment => r.car) (L : Multiset Assignment)).Nodup := by
  rwa [coe_map_ms, Multiset.coe_nodup]

theorem trialSwap_preserves (df : List Assignment) (h1 h2 : Nat) (lane : Lane) :
    (trialSwap df h1 h2 lane).length = df.length ∧
      (trialSwap df h1 h2 lane).map (fun r => (r.heat, r.lane))
        = df.map (fun r => (r.heat, r.lane)) ∧
      ((∀ hh, ((fiber df hh).map (·.car)).Nodup) →
        ∀ hh, ((fiber (trialSwap df h1 h2 lane) hh).map (·.car)).Nodup) := by
  rcases trialSwap_cases df h1 h2 lane with heq |
    ⟨i1, i2, r1, r2, hg1, hg2, hr1h, hr1l, hr2h, hr2l, hc2, hc1, heq⟩
  · rw [heq]
    exact ⟨rfl, rfl, fun h => h⟩
  · have hmem2 : r2.car ∉ (fiber df h1).map (·.car) := by simpa using hc2
    have hmem1 : r1.car ∉ (fiber df h2).map (·.car) := by simpa using hc1
    have hne12 : h1 ≠ h2 := by
      intro e
      apply hmem2
      apply List.mem_map.mpr
      refine ⟨r2, ?_, rfl⟩
      rw [mem_fiber_iff]
      exact ⟨List.get?_mem hg2, by rw [hr2h, e]⟩
    have hi12 : i1 ≠ i2 := by
      intro e
      rw [e, hg2] at hg1
      injection hg1 with e2
      exact hne12 (by rw [← hr1h, ← e2]; exact hr2h)
    have hg2' : (df.set i1 { r1 with car := r2.car }).get? i2 = some r2 := by
      rw [List.get?_eq_getElem?] at hg2 ⊢
      rw [List.getElem?_set_ne hi12]
      exact hg2
    refine ⟨?_, ?_, ?_⟩
    · rw [heq]
      simp [List.length_set]
    · rw [heq]
      have m1 : (df.set i1 { r1 with car := r2.car }).map (fun r => (r.heat, r.lane))
          = df.map (fun r => (r.heat, r.lane)) := by
        rw [List.map_set]
        apply set_same
        rw [List.get?_eq_getElem?, List.getElem?_map]
        rw [List.get?_eq_getElem?] at hg1
        rw [hg1]
        rfl
      rw [List.map_set, m1]
      apply set_same
      rw [List.get?_eq_getElem?, List.getElem?_map]
      rw [List.get?_eq_getElem?] at hg2
      rw [hg2]
      rfl
    · intro hnd hh
      rw [heq]
      have A := fiber_set df i1 r1 { r1 with car := r2.car } hh hg1
      have B := fiber_set (df.set i1 { r1 with car := r2.car }) i2 r2
        { r2 with car := r1.car } hh hg2'
      rcases eq_or_ne hh h1 with rfl | e1
      · -- target heat: gains r2.car in place of r1.car
        rw [if_pos hr1h, if_pos hr1h] at A
        rw [if_neg (by rw [hr2h]; exact Ne.symm hne12),
          if_neg (by rw [hr2h]; exact Ne.symm hne12)] at B
        simp only [add_zero] at B
        apply nodup_map_car_of_multiset
        rw [B]
        have hA := congrArg (Multiset.map (fun r : Assignment => r.car)) A
        simp only [Multiset.map_add, Multiset.map_singleton] at hA
        have hle : Multiset.map (fun r : Assignment => r.car)
              ((fiber (df.set i1 { r1 with car := r2.car }) hh
                : List Assignment) : Multiset Assignment)
            ≤ Multiset.map (fun r : Assignment => r.car)
                ((fiber df hh : List Assignment) : Multiset Assignment)
              + {r2.car} := by
          rw [← hA]
          exact Multiset.le_add_right _ _
        refine Multiset.nodup_of_le hle ?_
        rw [add_comm, Multiset.singleton_add]
        refine Multiset.nodup_cons.mpr ⟨?_, ?_⟩
        · rw [coe_map_ms, Multiset.mem_coe]
          exact hmem2
        · exact multiset_nodup_map_car _ (hnd hh)
      · rcases eq_or_ne hh h2 with rfl | e2
        · -- donor heat: gains r1.car in place of r2.car
          rw [if_neg (by rw [hr1h]; exact hne12),
            if_neg (by rw [hr1h]; exact hne12)] at A
          simp only [add_zero] at A
          rw [if_pos hr2h, if_pos hr2h] at B
          apply nodup_map_car_of_multiset
          have hB := congrArg (Multiset.map (fun r : Assignment => r.car)) B
          simp only [Multiset.map_add, Multiset.map_singleton] at hB
          rw [A] at hB
          have hle : Multiset.map (fun r : Assignment => r.car)
                ((fiber ((df.set i1 { r1 with car := r2.car }).set i2
                    { r2 with car := r1.car }) hh
                  : List Assignment) : Multiset Assignment)
              ≤ Multiset.map (fun r : Assignment => r.car)
                  ((fiber df hh : List Assignment) : Multiset Assignment)
                + {r1.car} := by
            rw [← hB]
            exact Multiset.le_add_right _ _
          refine Multiset.nodup_of_le hle ?_
          rw [add_comm, Multiset.singleton_add]
          refine Multiset.nodup_cons.mpr ⟨?_, ?_⟩
          · rw [coe_map_ms, Multiset.mem_coe]
            exact hmem1
          · exact multiset_nodup_map_car _ (hnd hh)
        · -- other heats: fiber unchanged as a multiset
          rw [if_neg (by rw [hr1h]; exact fun e => e1 e.symm),
            if_neg (by rw [hr1h]; exact fun e => e1 e.symm)] at A
          simp only [add_zero] at A
          rw [if_neg (by rw [hr2h]; exact fun e => e2 e.symm),
            if_neg (by rw [hr2h]; exact fun e => e2 e.symm)] at B
          simp only [add_zero] at B
          apply nodup_map_car_of_multiset
          rw [B, A]
          exact multiset_nodup_map_car _ (hnd hh)

theorem optimize_fold_preserves (df : List Assignment)
    (cs : List (Nat × Nat × Lane)) :
    ∀ b : List Assignment × ℚ,
      (b.1.length = df.length ∧
        b.1.map (fun r => (r.heat, r.lane)) = df.map (fun r => (r.heat, r.lane)) ∧
        ((∀ hh, ((fiber df hh).map (·.car)).Nodup) →
          ∀ hh, ((fiber b.1 hh).map (·.car)).Nodup)) →
      ((cs.foldl optStep b).1.length = df.length ∧
        (cs.foldl optStep b).1.map (fun r => (r.heat, r.lane))
          = df.map (fun r => (r.heat, r.lane)) ∧
        ((∀ hh, ((fiber df hh).map (·.car)).Nodup) →
          ∀ hh, ((fiber (cs.foldl optStep b).1 hh).map (·.car)).Nodup)) := by
  induction cs with
  | nil => exact fun b hb => hb
  | cons c cs ih =>
    intro b hb
    simp only [List.foldl_cons]
    apply ih
    obtain ⟨hb1, hb2, hb3⟩ := hb
    obtain ⟨t1, t2, t3⟩ := trialSwap_preserves b.1 c.1 c.2.1 c.2.2
    simp only [optStep]
    split
    · exact ⟨t1.trans hb1, t2.trans hb2, fun h hh => t3 (hb3 h) hh⟩
    · exact ⟨hb1, hb2, hb3⟩

/-- C7: `optimize_opponent_fairness` returns a table with the same row count
as its input and with every row's (Heat, Lane) pair unchanged position by
position — so the column structure is identical and each (Heat, Lane) cell is
still occupied by exactly one car, swaps exchanging only the Car values of two
same-lane cells of different heats — and if no heat of the input contains a
duplicate car then no heat of the output does. -/
theorem C7_optimizer_preserves_structure (df : List Assignment)
    (choices : List (Nat × Nat × Lane))
    (hnd : hasDupCarInHeat df = false) :
    (optimize_opponent_fairness df choices).length = df.length ∧
      (optimize_opponent_fairness df choices).map (fun r => (r.heat, r.lane))
        = df.map (fun r => (r.heat, r.lane)) ∧
      hasDupCarInHeat (optimize_opponent_fairness df choices) = false := by
  simp only [optimize_opponent_fairness]
  obtain ⟨h1, h2, h3⟩ := optimize_fold_preserves df choices
    (df, fairnessScore df) ⟨rfl, rfl, fun h => h⟩
  refine ⟨h1, h2, ?_⟩
  rw [any_dupCarInHeat_eq_false_iff] at hnd ⊢
  exact h3 hnd

theorem C7_optimizer_preserves_structure_witness :
    hasDupCarInHeat [Assignment.mk 1 "A" "L1", Assignment.mk 1 "B" "L2",
        Assignment.mk 2 "C" "L1", Assignment.mk 2 "D" "L2"] = false ∧
      ((optimize_opponent_fairness [Assignment.mk 1 "A" "L1",
          Assignment.mk 1 "B" "L2", Assignment.mk 2 "C" "L1",
          Assignment.mk 2 "D" "L2"] [(1, 2, "L1")]).length
          = [Assignment.mk 1 "A" "L1", Assignment.mk 1 "B" "L2",
              Assignment.mk 2 "C" "L1", Assignment.mk 2 "D" "L2"].length ∧
        (optimize_opponent_fairness [Assignment.mk 1 "A" "L1",
            Assignment.mk 1 "B" "L2", Assignment.mk 2 "C" "L1",
            Assignment.mk 2 "D" "L2"] [(1, 2, "L1")]).map
              (fun r => (r.heat, r.lane))
          = [Assignment.mk 1 "A" "L1", Assignment.mk 1 "B" "L2",
              Assignment.mk 2 "C" "L1", Assignment.mk 2 "D" "L2"].map
              (fun r => (r.heat, r.lane)) ∧
        hasDupCarInHeat (optimize_opponent_fairness [Assignment.mk 1 "A" "L1",
            Assignment.mk 1 "B" "L2", Assignment.mk 2 "C" "L1",
            Assignment.mk 2 "D" "L2"] [(1, 2, "L1")]) = false) :=
  ⟨by decide, C7_optimizer_preserves_structure
    [Assignment.mk 1 "A" "L1", Assignment.mk 1 "B" "L2",
      Assignment.mk 2 "C" "L1", Assignment.mk 2 "D" "L2"]
    [(1, 2, "L1")] (by decide)⟩

theorem mem_uniqueList {α : Type} [DecidableEq α] :
    ∀ (m : Nat) (l : List α), l.length ≤ m → ∀ x, x ∈ uniqueList l → x ∈ l := by
  intro m
  induction m with
  | zero =>
    intro l hl x hx
    cases l with
    | nil => simp [uniqueList] at hx
    | cons a t => simp at hl
  | succ m ih =>
    intro l hl x hx
    cases l with
    | nil => simp [uniqueList] at hx
    | cons a t =>
      rw [uniqueList] at hx
      rcases List.mem_cons.mp hx with rfl | hx'
      · exact List.mem_cons_self _ _
      · have hlen : (t.filter (fun y => y != a)).length ≤ m := by
          have := List.length_filter_le (fun y => y != a) t
          simp at hl
          omega
        have := ih (t.filter (fun y => y != a)) hlen x hx'
        exact List.mem_cons_of_mem _ (List.mem_filter.mp this).1

theorem uniqueList_nodup {α : Type} [DecidableEq α] :
    ∀ (m : Nat) (l : List α), l.length ≤ m → (uniqueList l).Nodup := by
  intro m
  induction m with
  | zero =>
    intro l hl
    cases l with
    | nil => simp [uniqueList]
    | cons a t => simp at hl
  | succ m ih =>
    intro l hl
    cases l with
    | nil => simp [uniqueList]
    | cons a t =>
      rw [uniqueList]
      have hlen : (t.filter (fun y => y != a)).length ≤ m := by
        have := List.length_filter_le (fun y => y != a) t
        simp at hl
        omega
      refine List.nodup_cons.mpr ⟨?_, ih _ hlen⟩
      intro hmem
      have := mem_uniqueList _ _ hlen a hmem
      have := (List.mem_filter.mp this).2
      simp at this

theorem sortRows_perm (df : List Assignment) : (sortRows df).Perm df :=
  List.perm_insertionSort rowLt df

theorem heatSize_perm {df df' : List Assignment} (hp : df.Perm df') (h : Nat) :
    heatSize df h = heatSize df' h :=
  (hp.filter _).length_eq

theorem firstIdx_lt_length (p : Assignment → Bool) :
    ∀ (l : List Assignment) (i : Nat), firstIdx p l = some i → i < l.length := by
  intro l
  induction l with
  | nil => intro i h; exact Option.noConfusion h
  | cons x t ih =>
    intro i h
    rw [firstIdx] at h
    by_cases hp : p x
    · rw [if_pos hp] at h
      obtain rfl : (0 : Nat) = i := by injection h
      simp
    · rw [if_neg hp] at h
      cases hfi : firstIdx p t with
      | none => rw [hfi] at h; exact Option.noConfusion h
      | some j =>
        rw [hfi] at h
        simp only [Option.map_some'] at h
        obtain rfl : j + 1 = i := by injection h
        have := ih j hfi
        simp
        omega

theorem findMove_spec (df : List Assignment) (hN : List Nat) (n hn : Nat)
    (uc : List Car) (ul : List Lane) (i : Nat)
    (h : findMove df hN n hn uc ul = some i) :
    ∃ dn r, dn ∈ hN ∧ dn ≠ hn ∧ heatSize df dn = n ∧
      df.get? i = some r ∧ r.heat = dn ∧
      uc.contains r.car = false ∧ ul.contains r.lane = false := by
  obtain ⟨dn, hdn, hf⟩ := List.exists_of_findSome?_eq_some h
  by_cases h1 : (dn == hn) = true
  · rw [if_pos h1] at hf
    exact Option.noConfusion hf
  · rw [if_neg h1] at hf
    by_cases h2 : (heatSize df dn != n) = true
    · rw [if_pos h2] at hf
      exact Option.noConfusion hf
    · rw [if_neg h2] at hf
      have hlt := firstIdx_lt_length _ df i hf
      have hget : df.get? i = some (df.get ⟨i, hlt⟩) := by
        rw [List.get?_eq_getElem?]
        exact List.getElem?_eq_getElem hlt
      have hpred := firstIdx_found _ df i _ hf hget
      simp only [Bool.and_eq_true, beq_iff_eq, Bool.not_eq_true'] at hpred
      refine ⟨dn, df.get ⟨i, hlt⟩, hdn, by simpa using h1, by simpa using h2,
        hget, hpred.1.1, hpred.1.2, hpred.2⟩

theorem processHeat_cases (n : Nat) (hN : List Nat) (df : List Assignment)
    (hn : Nat) :
    processHeat n hN df hn = df ∨
      ∃ i r dn,
        heatSize df hn = n - 2 ∧ dn ∈ hN ∧ dn ≠ hn ∧ heatSize df dn = n ∧
        df.get? i = some r ∧ r.heat = dn ∧
        ((fiber df hn).map (·.car)).contains r.car = false ∧
        ((fiber df hn).map (·.lane)).contains r.lane = false ∧
        processHeat n hN df hn = sortRows (df.set i { r with heat := hn }) := by
  unfold processHeat
  by_cases hsz : ((fiber df hn).length != n - 2) = true
  · rw [if_pos hsz]
    exact Or.inl rfl
  · rw [if_neg hsz]
    cases hfm : findMove df hN n hn ((fiber df hn).map (·.car))
        ((fiber df hn).map (·.lane)) with
    | none => exact Or.inl rfl
    | some i =>
      dsimp only
      obtain ⟨dn, r, hdn, hdnhn, hdsz, hget, hrh, hcc, hcl⟩ :=
        findMove_spec df hN n hn _ _ i hfm
      rw [hget]
      refine Or.inr ⟨i, r, dn, by simpa using hsz, hdn, hdnhn, hdsz,
        hget, hrh, hcc, hcl, rfl⟩

theorem nodup_map_of_multiset {α β : Type} (f : α → β) {L : List α}
    (h : (Multiset.map f (L : Multiset α)).Nodup) : (L.map f).Nodup := by
  rwa [show Multiset.map f (L : Multiset α) = ((L.map f : List β) : Multiset β)
    from rfl, Multiset.coe_nodup] at h

theorem multiset_nodup_map_of {α β : Type} (f : α → β) (L : List α)
    (h : (L.map f).Nodup) : (Multiset.map f (L : Multiset α)).Nodup := by
  rwa [show Multiset.map f (L : Multiset α) = ((L.map f : List β) : Multiset β)
    from rfl, Multiset.coe_nodup]

theorem nodup_fiber_move {β : Type} (f : Assignment → β)
    (df : List Assignment) (i : Nat) (r : Assignment) (hn : Nat)
    (hget : df.get? i = some r) (hrh : r.heat ≠ hn)
    (hf : f { r with heat := hn } = f r)
    (hfresh : f r ∉ (fiber df hn).map f)
    (hnd : ∀ h, ((fiber df h).map f).Nodup) :
    ∀ h, ((fiber (df.set i { r with heat := hn }) h).map f).Nodup := by
  intro h
  have A := fiber_set df i r { r with heat := hn } h hget
  rcases eq_or_ne h hn with rfl | ehn
  · rw [if_neg hrh, if_pos rfl] at A
    simp only [add_zero] at A
    apply nodup_map_of_multiset f
    rw [A, Multiset.map_add, Multiset.map_singleton, hf]
    rw [add_comm, Multiset.singleton_add]
    refine Multiset.nodup_cons.mpr ⟨?_, multiset_nodup_map_of f _ (hnd h)⟩
    rw [show Multiset.map f ((fiber df h : List Assignment) : Multiset Assignment)
      = (((fiber df h).map f : List β) : Multiset β) from rfl, Multiset.mem_coe]
    exact hfresh
  · rw [if_neg (show ¬ (hn = h) from fun e => ehn e.symm)] at A
    simp only [add_zero] at A
    by_cases hrd : r.heat = h
    · rw [if_pos hrd] at A
      apply nodup_map_of_multiset f
      have hC := congrArg (Multiset.map f) A
      simp only [Multiset.map_add, Multiset.map_singleton] at hC
      have hle : Multiset.map f
            ((fiber (df.set i { r with heat := hn }) h
              : List Assignment) : Multiset Assignment)
          ≤ Multiset.map f ((fiber df h : List Assignment) : Multiset Assignment) := by
        rw [← hC]
        exact Multiset.le_add_right _ _
      exact Multiset.nodup_of_le hle (multiset_nodup_map_of f _ (hnd h))
    · rw [if_neg hrd] at A
      simp only [add_zero] at A
      apply nodup_map_of_multiset f
      rw [A]
      exact multiset_nodup_map_of f _ (hnd h)

theorem processHeat_nodup_car (n : Nat) (hN : List Nat) (df : List Assignment)
    (hn : Nat) (hnd : ∀ h, ((fiber df h).map (·.car)).Nodup) :
    ∀ h, ((fiber (processHeat n hN df hn) h).map (·.car)).Nodup := by
  rcases processHeat_cases n hN df hn with heq |
    ⟨i, r, dn, hsz, hdn, hdnhn, hdsz, hget, hrh, hcc, hcl, heq⟩
  · rw [heq]; exact hnd
  · rw [heq]
    intro h
    have hperm : (fiber (sortRows (df.set i { r with heat := hn })) h).Perm
        (fiber (df.set i { r with heat := hn }) h) := by
      unfold fiber
      exact (sortRows_perm (df.set i { r with heat := hn })).filter _
    rw [(hperm.map (fun x : Assignment => x.car)).nodup_iff]
    exact nodup_fiber_move (fun x : Assignment => x.car) df i r hn hget
      (by rw [hrh]; exact hdnhn) rfl (by simpa using hcc) hnd h

theorem processHeat_nodup_lane (n : Nat) (hN : List Nat) (df : List Assignment)
    (hn : Nat) (hnd : ∀ h, ((fiber df h).map (·.lane)).Nodup) :
    ∀ h, ((fiber (processHeat n hN df hn) h).map (·.lane)).Nodup := by
  rcases processHeat_cases n hN df hn with heq |
    ⟨i, r, dn, hsz, hdn, hdnhn, hdsz, hget, hrh, hcc, hcl, heq⟩
  · rw [heq]; exact hnd
  · rw [heq]
    intro h
    have hperm : (fiber (sortRows (df.set i { r with heat := hn })) h).Perm
        (fiber (df.set i { r with heat := hn }) h) := by
      unfold fiber
      exact (sortRows_perm (df.set i { r with heat := hn })).filter _
    rw [(hperm.map (fun x : Assignment => x.lane)).nodup_iff]
    exact nodup_fiber_move (fun x : Assignment => x.lane) df i r hn hget
      (by rw [hrh]; exact hdnhn) rfl (by simpa using hcl) hnd h

theorem pairs_set_same (df : List Assignment) (i : Nat) (r : Assignment)
    (hn : Nat) (hget : df.get? i = some r) :
    carLanePairs (df.set i { r with heat := hn }) = carLanePairs df := by
  unfold carLanePairs
  rw [List.map_set]
  apply set_same
  rw [List.get?_eq_getElem?, List.getElem?_map]
  rw [List.get?_eq_getElem?] at hget
  rw [hget]
  rfl

theorem processHeat_length (n : Nat) (hN : List Nat) (df : List Assignment)
    (hn : Nat) : (processHeat n hN df hn).length = df.length := by
  rcases processHeat_cases n hN df hn with heq |
    ⟨i, r, dn, _, _, _, _, hget, _, _, _, heq⟩
  · rw [heq]
  · rw [heq, (sortRows_perm _).length_eq]
    simp

theorem carLanePairs_perm {df df' : List Assignment} (hp : df.Perm df') :
    (carLanePairs df).Perm (carLanePairs df') :=
  hp.map _

theorem processHeat_pairs (n : Nat) (hN : List Nat) (df : List Assignment)
    (hn : Nat) :
    (↑(carLanePairs (processHeat n hN df hn)) : Multiset (Car × Lane))
      = ↑(carLanePairs df) := by
  rcases processHeat_cases n hN df hn with heq |
    ⟨i, r, dn, _, _, _, _, hget, _, _, _, heq⟩
  · rw [heq]
  · rw [heq]
    rw [Multiset.coe_eq_coe.mpr (carLanePairs_perm (sortRows_perm _))]
    rw [pairs_set_same df i r hn hget]

theorem fiber_set_card (df : List Assignment) (i : Nat) (r r' : Assignment)
    (h : Nat) (hget : df.get? i = some r) :
    heatSize (df.set i r') h + (if r.heat = h then 1 else 0)
      = heatSize df h + (if r'.heat = h then 1 else 0) := by
  have A := congrArg Multiset.card (fiber_set df i r r' h hget)
  simpa [apply_ite Multiset.card, heatSize] using A

theorem processHeat_sizes (n : Nat) (hN : List Nat) (df : List Assignment)
    (hn : Nat) :
    (∀ h, heatSize (processHeat n hN df hn) h = heatSize df h) ∨
      (heatSize df hn = n - 2 ∧
        ∃ dn, dn ≠ hn ∧ heatSize df dn = n ∧
          heatSize (processHeat n hN df hn) hn = heatSize df hn + 1 ∧
          heatSize (processHeat n hN df hn) dn + 1 = heatSize df dn ∧
          (∀ h, h ≠ hn → h ≠ dn → heatSize (processHeat n hN df hn) h
            = heatSize df h)) := by
  rcases processHeat_cases n hN df hn with heq |
    ⟨i, r, dn, hsz, hdn, hdnhn, hdsz, hget, hrh, hcc, hcl, heq⟩
  · rw [heq]
    exact Or.inl (fun h => rfl)
  · right
    refine ⟨hsz, dn, hdnhn, hdsz, ?_, ?_, ?_⟩
    · rw [heq, heatSize_perm (sortRows_perm _) hn]
      have := fiber_set_card df i r { r with heat := hn } hn hget
      rw [if_neg (by rw [hrh]; exact hdnhn), if_pos rfl] at this
      omega
    · rw [heq, heatSize_perm (sortRows_perm _) dn]
      have := fiber_set_card df i r { r with heat := hn } dn hget
      rw [if_pos hrh] at this
      rw [if_neg (show ¬ (hn = dn) from fun e => hdnhn e.symm)] at this
      omega
    · intro h hhn hdn2
      rw [heq, heatSize_perm (sortRows_perm _) h]
      have := fiber_set_card df i r { r with heat := hn } h hget
      rw [if_neg (show ¬ (r.heat = h) from fun e => hdn2 (by rw [← e]; exact hrh))]
        at this
      rw [if_neg (show ¬ (hn = h) from fun e => hhn e.symm)] at this
      omega

theorem rebalance_fold (n : Nat) (hN : List Nat) (df₀ : List Assignment)
    (h2 : 2 ≤ n) :
    ∀ (rest : List Nat) (dfc : List Assignment),
      rest.Nodup →
      (↑(carLanePairs dfc) : Multiset (Car × Lane)) = ↑(carLanePairs df₀) →
      dfc.length = df₀.length →
      (∀ h, ((fiber dfc h).map (·.car)).Nodup) →
      (∀ h, ((fiber dfc h).map (·.lane)).Nodup) →
      (∀ h, heatSize dfc h = heatSize df₀ h ∨
        (heatSize dfc h = heatSize df₀ h + 1 ∧ heatSize df₀ h = n - 2) ∨
        (heatSize dfc h + 1 = heatSize df₀ h ∧ heatSize df₀ h = n)) →
      (∀ h ∈ rest, heatSize dfc h = heatSize df₀ h ∨
        (heatSize dfc h + 1 = heatSize df₀ h ∧ heatSize df₀ h = n)) →
      ((↑(carLanePairs (rest.foldl (processHeat n hN) dfc))
            : Multiset (Car × Lane)) = ↑(carLanePairs df₀) ∧
        (rest.foldl (processHeat n hN) dfc).length = df₀.length ∧
        (∀ h, ((fiber (rest.foldl (processHeat n hN) dfc) h).map (·.car)).Nodup) ∧
        (∀ h, ((fiber (rest.foldl (processHeat n hN) dfc) h).map (·.lane)).Nodup) ∧
        (∀ h, heatSize (rest.foldl (processHeat n hN) dfc) h = heatSize df₀ h ∨
          (heatSize (rest.foldl (processHeat n hN) dfc) h = heatSize df₀ h + 1 ∧
            heatSize df₀ h = n - 2) ∨
          (heatSize (rest.foldl (processHeat n hN) dfc) h + 1 = heatSize df₀ h ∧
            heatSize df₀ h = n))) := by
  intro rest
  induction rest with
  | nil =>
    intro dfc _ hp hl hc hla hs _
    exact ⟨hp, hl, hc, hla, hs⟩
  | cons hn rest ih =>
    intro dfc hnodup hp hl hc hla hs hrest
    simp only [List.foldl_cons]
    have hhn_not : hn ∉ rest := (List.nodup_cons.mp hnodup).1
    have hnodup' := (List.nodup_cons.mp hnodup).2
    have key : (∀ h, heatSize (processHeat n hN dfc hn) h = heatSize df₀ h ∨
        (heatSize (processHeat n hN dfc hn) h = heatSize df₀ h + 1 ∧
          heatSize df₀ h = n - 2) ∨
        (heatSize (processHeat n hN dfc hn) h + 1 = heatSize df₀ h ∧
          heatSize df₀ h = n)) ∧
        (∀ h ∈ rest, heatSize (processHeat n hN dfc hn) h = heatSize df₀ h ∨
          (heatSize (processHeat n hN dfc hn) h + 1 = heatSize df₀ h ∧
            heatSize df₀ h = n)) := by
      rcases processHeat_sizes n hN dfc hn with hflat |
        ⟨hsz, dn, hdnhn, hdsz, hplus, hminus, hother⟩
      · constructor
        · intro h
          rw [hflat h]
          exact hs h
        · intro h hh
          rw [hflat h]
          exact hrest h (List.mem_cons_of_mem _ hh)
      · have h0hn : heatSize df₀ hn = n - 2 := by
          rcases hrest hn (List.mem_cons_self _ _) with he | ⟨hm, hm0⟩
          · omega
          · omega
        have h0dn : heatSize df₀ dn = n := by
          rcases hs dn with he | ⟨hm, hm0⟩ | ⟨hm, hm0⟩
          · omega
          · omega
          · omega
        constructor
        · intro h
          rcases eq_or_ne h hn with rfl | ehn
          · exact Or.inr (Or.inl ⟨by omega, h0hn⟩)
          · rcases eq_or_ne h dn with rfl | edn
            · exact Or.inr (Or.inr ⟨by omega, h0dn⟩)
            · rw [hother h ehn edn]
              exact hs h
        · intro h hh
          have hne : h ≠ hn := fun e => hhn_not (e ▸ hh)
          rcases eq_or_ne h dn with rfl | edn
          · exact Or.inr ⟨by omega, h0dn⟩
          · rw [hother h hne edn]
            exact hrest h (List.mem_cons_of_mem _ hh)
    exact ih (processHeat n hN dfc hn) hnodup'
      ((processHeat_pairs n hN dfc hn).trans hp)
      ((processHeat_length n hN dfc hn).trans hl)
      (processHeat_nodup_car n hN dfc hn hc)
      (processHeat_nodup_lane n hN dfc hn hla)
      key.1 key.2

/-- C6: `rebalance_heats` never changes the number of rows, preserves the
(Car, Lane) content of the table as a multiset (it only ever rewrites the Heat
field of a relocated row), never introduces a duplicate car or lane within any
heat, and changes each heat's size by at most one: a heat can only grow by one
row if it had exactly `num_lanes - 2` rows, and can only shrink by one row if
it was a full donor with exactly `num_lanes` rows. -/
theorem C6_rebalance_frame (df : List Assignment) (num_lanes : Nat)
    (h2 : 2 ≤ num_lanes)
    (hcar : hasDupCarInHeat df = false)
    (hlane : hasDupLaneInHeat df = false) :
    (rebalance_heats df num_lanes).length = df.length ∧
      (↑(carLanePairs (rebalance_heats df num_lanes)) : Multiset (Car × Lane))
        = ↑(carLanePairs df) ∧
      hasDupCarInHeat (rebalance_heats df num_lanes) = false ∧
      hasDupLaneInHeat (rebalance_heats df num_lanes) = false ∧
      (∀ h, heatSize (rebalance_heats df num_lanes) h = heatSize df h ∨
        (heatSize (rebalance_heats df num_lanes) h = heatSize df h + 1 ∧
          heatSize df h = num_lanes - 2) ∨
        (heatSize (rebalance_heats df num_lanes) h + 1 = heatSize df h ∧
          heatSize df h = num_lanes)) := by
  simp only [rebalance_heats]
  have hnodup : (uniqueList (df.map (·.heat))).Nodup :=
    uniqueList_nodup (df.map (·.heat)).length _ le_rfl
  rw [any_dupCarInHeat_eq_false_iff] at hcar
  rw [any_dupLaneInHeat_eq_false_iff] at hlane
  obtain ⟨p1, p2, p3, p4, p5⟩ := rebalance_fold num_lanes
    (uniqueList (df.map (·.heat))) df h2 (uniqueList (df.map (·.heat))) df
    hnodup rfl rfl hcar hlane (fun h => Or.inl rfl) (fun h _ => Or.inl rfl)
  refine ⟨p2, p1, ?_, ?_, p5⟩
  · rw [any_dupCarInHeat_eq_false_iff]
    exact p3
  · rw [any_dupLaneInHeat_eq_false_iff]
    exact p4

theorem C6_rebalance_frame_witness :
    (2 ≤ 4 ∧
      hasDupCarInHeat [Assignment.mk 1 "A" "L1", Assignment.mk 1 "B" "L2",
        Assignment.mk 1 "C" "L3", Assignment.mk 1 "D" "L4",
        Assignment.mk 2 "E" "L1", Assignment.mk 2 "F" "L2"] = false ∧
      hasDupLaneInHeat [Assignment.mk 1 "A" "L1", Assignment.mk 1 "B" "L2",
        Assignment.mk 1 "C" "L3", Assignment.mk 1 "D" "L4",
        Assignment.mk 2 "E" "L1", Assignment.mk 2 "F" "L2"] = false) ∧
      ((rebalance_heats [Assignment.mk 1 "A" "L1", Assignment.mk 1 "B" "L2",
          Assignment.mk 1 "C" "L3", Assignment.mk 1 "D" "L4",
          Assignment.mk 2 "E" "L1", Assignment.mk 2 "F" "L2"] 4).length
          = [Assignment.mk 1 "A" "L1", Assignment.mk 1 "B" "L2",
            Assignment.mk 1 "C" "L3", Assignment.mk 1 "D" "L4",
            Assignment.mk 2 "E" "L1", Assignment.mk 2 "F" "L2"].length ∧
        (↑(carLanePairs (rebalance_heats [Assignment.mk 1 "A" "L1",
            Assignment.mk 1 "B" "L2", Assignment.mk 1 "C" "L3",
            Assignment.mk 1 "D" "L4", Assignment.mk 2 "E" "L1",
            Assignment.mk 2 "F" "L2"] 4)) : Multiset (Car × Lane))
          = ↑(carLanePairs [Assignment.mk 1 "A" "L1", Assignment.mk 1 "B" "L2",
            Assignment.mk 1 "C" "L3", Assignment.mk 1 "D" "L4",
            Assignment.mk 2 "E" "L1", Assignment.mk 2 "F" "L2"]) ∧
        hasDupCarInHeat (rebalance_heats [Assignment.mk 1 "A" "L1",
          Assignment.mk 1 "B" "L2", Assignment.mk 1 "C" "L3",
          Assignment.mk 1 "D" "L4", Assignment.mk 2 "E" "L1",
          Assignment.mk 2 "F" "L2"] 4) = false ∧
        hasDupLaneInHeat (rebalance_heats [Assignment.mk 1 "A" "L1",
          Assignment.mk 1 "B" "L2", Assignment.mk 1 "C" "L3",
          Assignment.mk 1 "D" "L4", Assignment.mk 2 "E" "L1",
          Assignment.mk 2 "F" "L2"] 4) = false ∧
        (∀ h, heatSize (rebalance_heats [Assignment.mk 1 "A" "L1",
            Assignment.mk 1 "B" "L2", Assignment.mk 1 "C" "L3",
            Assignment.mk 1 "D" "L4", Assignment.mk 2 "E" "L1",
            Assignment.mk 2 "F" "L2"] 4) h
            = heatSize [Assignment.mk 1 "A" "L1", Assignment.mk 1 "B" "L2",
              Assignment.mk 1 "C" "L3", Assignment.mk 1 "D" "L4",
              Assignment.mk 2 "E" "L1", Assignment.mk 2 "F" "L2"] h ∨
          (heatSize (rebalance_heats [Assignment.mk 1 "A" "L1",
              Assignment.mk 1 "B" "L2", Assignment.mk 1 "C" "L3",
              Assignment.mk 1 "D" "L4", Assignment.mk 2 "E" "L1",
              Assignment.mk 2 "F" "L2"] 4) h
              = heatSize [Assignment.mk 1 "A" "L1", Assignment.mk 1 "B" "L2",
                Assignment.mk 1 "C" "L3", Assignment.mk 1 "D" "L4",
                Assignment.mk 2 "E" "L1", Assignment.mk 2 "F" "L2"] h + 1 ∧
            heatSize [Assignment.mk 1 "A" "L1", Assignment.mk 1 "B" "L2",
              Assignment.mk 1 "C" "L3", Assignment.mk 1 "D" "L4",
              Assignment.mk 2 "E" "L1", Assignment.mk 2 "F" "L2"] h = 4 - 2) ∨
          (heatSize (rebalance_heats [Assignment.mk 1 "A" "L1",
              Assignment.mk 1 "B" "L2", Assignment.mk 1 "C" "L3",
              Assignment.mk 1 "D" "L4", Assignment.mk 2 "E" "L1",
              Assignment.mk 2 "F" "L2"] 4) h + 1
              = heatSize [Assignment.mk 1 "A" "L1", Assignment.mk 1 "B" "L2",
                Assignment.mk 1 "C" "L3", Assignment.mk 1 "D" "L4",
                Assignment.mk 2 "E" "L1", Assignment.mk 2 "F" "L2"] h ∧
            heatSize [Assignment.mk 1 "A" "L1", Assignment.mk 1 "B" "L2",
              Assignment.mk 1 "C" "L3", Assignment.mk 1 "D" "L4",
              Assignment.mk 2 "E" "L1", Assignment.mk 2 "F" "L2"] h = 4))) :=
  ⟨⟨by decide, by decide, by decide⟩,
    C6_rebalance_frame [Assignment.mk 1 "A" "L1", Assignment.mk 1 "B" "L2",
      Assignment.mk 1 "C" "L3", Assignment.mk 1 "D" "L4",
      Assignment.mk 2 "E" "L1", Assignment.mk 2 "F" "L2"] 4
      (by decide) (by decide) (by decide)⟩

theorem greedyStep_cases (n : Nat) (acc : List Car × List (Car × Car))
    (p : Car × Car) :
    greedyStep n acc p = acc ∨
      greedyStep n acc p = (acc.1 ++ [p.1, p.2], acc.2 ++ [p]) := by
  unfold greedyStep
  by_cases c1 : p.1 ∈ acc.1 ∨ p.2 ∈ acc.1
  · rw [if_pos c1]
    exact Or.inl rfl
  · rw [if_neg c1]
    by_cases c2 : n < acc.1.length + 2
    · rw [if_pos c2]
      exact Or.inl rfl
    · rw [if_neg c2]
      exact Or.inr rfl

theorem greedy_fold_ext (n : Nat) :
    ∀ (l : List (Car × Car)) (acc : List Car × List (Car × Car)),
      ∃ cs us, (l.foldl (greedyStep n) acc).1 = acc.1 ++ cs ∧
        (l.foldl (greedyStep n) acc).2 = acc.2 ++ us ∧
        (∀ q ∈ us, q ∈ l) := by
  intro l
  induction l with
  | nil => exact fun acc => ⟨[], [], by simp, by simp, by simp⟩
  | cons p l' ih =>
    intro acc
    simp only [List.foldl_cons]
    rcases greedyStep_cases n acc p with he | he
    · rw [he]
      obtain ⟨cs, us, h1, h2, h3⟩ := ih acc
      exact ⟨cs, us, h1, h2, fun q hq => List.mem_cons_of_mem _ (h3 q hq)⟩
    · rw [he]
      obtain ⟨cs, us, h1, h2, h3⟩ := ih (acc.1 ++ [p.1, p.2], acc.2 ++ [p])
      refine ⟨[p.1, p.2] ++ cs, p :: us, ?_, ?_, ?_⟩
      · rw [h1]
        simp
      · rw [h2]
        simp
      · intro q hq
        rcases List.mem_cons.mp hq with rfl | hq'
        · exact List.mem_cons_self _ _
        · exact List.mem_cons_of_mem _ (h3 q hq')

theorem greedy_cars_bound (n : Nat) :
    ∀ (l : List (Car × Car)) (acc : List Car × List (Car × Car)),
      acc.1.length ≤ n → (l.foldl (greedyStep n) acc).1.length ≤ n := by
  intro l
  induction l with
  | nil => exact fun acc h => h
  | cons p l' ih =>
    intro acc hacc
    simp only [List.foldl_cons]
    apply ih
    unfold greedyStep
    by_cases c1 : p.1 ∈ acc.1 ∨ p.2 ∈ acc.1
    · rw [if_pos c1]
      exact hacc
    · rw [if_neg c1]
      by_cases c2 : n < acc.1.length + 2
      · rw [if_pos c2]
        exact hacc
      · rw [if_neg c2]
        simp
        omega

theorem greedy_pairs_committed (n : Nat) :
    ∀ (l : List (Car × Car)) (acc : List Car × List (Car × Car)),
      (∀ q ∈ acc.2, q.1 ∈ acc.1 ∧ q.2 ∈ acc.1) →
      ∀ q ∈ (l.foldl (greedyStep n) acc).2,
        q.1 ∈ (l.foldl (greedyStep n) acc).1 ∧
          q.2 ∈ (l.foldl (greedyStep n) acc).1 := by
  intro l
  induction l with
  | nil => exact fun acc h => h
  | cons p l' ih =>
    intro acc hacc
    simp only [List.foldl_cons]
    apply ih
    rcases greedyStep_cases n acc p with he | he <;> rw [he]
    · exact hacc
    · intro q hq
      rcases List.mem_append.mp hq with hq' | hq'
      · obtain ⟨hq1, hq2⟩ := hacc q hq'
        exact ⟨List.mem_append_left _ hq1, List.mem_append_left _ hq2⟩
      · obtain rfl : q = p := by simpa using hq'
        exact ⟨List.mem_append_right _ (by simp), List.mem_append_right _ (by simp)⟩

theorem greedyScan_first (n : Nat) (p : Car × Car) (rest : List (Car × Car))
    (h2 : 2 ≤ n) :
    greedyScan n (p :: rest)
      = rest.foldl (greedyStep n) ([p.1, p.2], [p]) := by
  unfold greedyScan
  simp only [List.foldl_cons]
  congr 1
  unfold greedyStep
  rw [if_neg (by simp), if_neg (by simp; omega)]
  simp

theorem greedy_ge_two (n : Nat) (unmatched : List (Car × Car))
    (hne : unmatched ≠ []) (h2 : 2 ≤ n) :
    2 ≤ (greedyScan n unmatched).1.length := by
  cases unmatched with
  | nil => exact absurd rfl hne
  | cons p rest =>
    rw [greedyScan_first n p rest h2]
    obtain ⟨cs, us, h1, _, _⟩ := greedy_fold_ext n rest ([p.1, p.2], [p])
    rw [h1]
    simp

/-- C10: in `generate_round_robin_heats`, for a non-empty unmatched set and
`num_lanes ≥ 2`, the greedy scan always commits the first matchup it examines
into the empty heat, so it ends with at least 2 committed cars and the forced
fallback branch guarded by `len(heat_cars) < 2` never executes (the selection
equals the plain greedy scan). -/
theorem C10_forced_fallback_unreachable (num_lanes : Nat)
    (unmatched : List (Car × Car)) (hne : unmatched ≠ []) (h2 : 2 ≤ num_lanes) :
    2 ≤ (greedyScan num_lanes unmatched).1.length ∧
      rrSelect num_lanes unmatched = greedyScan num_lanes unmatched := by
  have hge := greedy_ge_two num_lanes unmatched hne h2
  refine ⟨hge, ?_⟩
  unfold rrSelect
  rw [if_neg (by omega)]

theorem C10_forced_fallback_unreachable_witness :
    (([(("A" : Car), ("B" : Car))] ≠ ([] : List (Car × Car))) ∧ 2 ≤ 2) ∧
      (2 ≤ (greedyScan 2 [(("A" : Car), ("B" : Car))]).1.length ∧
        rrSelect 2 [(("A" : Car), ("B" : Car))]
          = greedyScan 2 [(("A" : Car), ("B" : Car))]) :=
  ⟨⟨by decide, by decide⟩,
    C10_forced_fallback_unreachable 2 [(("A" : Car), ("B" : Car))]
      (by decide) (by decide)⟩

theorem rrSelect_eq_greedy (n : Nat) (unmatched : List (Car × Car))
    (hne : unmatched ≠ []) (h2 : 2 ≤ n) :
    rrSelect n unmatched = greedyScan n unmatched := by
  unfold rrSelect
  rw [if_neg (by have := greedy_ge_two n unmatched hne h2; omega)]

theorem greedyScan_used_sub (n : Nat) (unmatched : List (Car × Car)) :
    ∀ q ∈ (greedyScan n unmatched).2, q ∈ unmatched := by
  obtain ⟨cs, us, h1, h2, h3⟩ := greedy_fold_ext n unmatched ([], [])
  intro q hq
  unfold greedyScan at hq
  rw [h2] at hq
  exact h3 q (by simpa using hq)

theorem greedyScan_committed (n : Nat) (unmatched : List (Car × Car)) :
    ∀ q ∈ (greedyScan n unmatched).2,
      q.1 ∈ (greedyScan n unmatched).1 ∧ q.2 ∈ (greedyScan n unmatched).1 :=
  greedy_pairs_committed n unmatched ([], []) (by simp)

theorem greedyScan_head_used (n : Nat) (p : Car × Car) (rest : List (Car × Car))
    (h2 : 2 ≤ n) : p ∈ (greedyScan n (p :: rest)).2 := by
  rw [greedyScan_first n p rest h2]
  obtain ⟨cs, us, h1, h2', h3⟩ := greedy_fold_ext n rest ([p.1, p.2], [p])
  rw [h2']
  simp

theorem greedyScan_cars_le (n : Nat) (unmatched : List (Car × Car)) :
    (greedyScan n unmatched).1.length ≤ n :=
  greedy_cars_bound n unmatched ([], []) (by simp)

theorem mem_zip_of_mem_left {α β : Type} :
    ∀ (l1 : List α) (l2 : List β), l1.length = l2.length →
      ∀ a ∈ l1, ∃ b, (a, b) ∈ l1.zip l2 := by
  intro l1
  induction l1 with
  | nil =>
    intro l2 h a ha
    simp at ha
  | cons x t ih =>
    intro l2 h a ha
    cases l2 with
    | nil => simp at h
    | cons y t2 =>
      rcases List.mem_cons.mp ha with rfl | ha'
      · exact ⟨y, by simp⟩
      · obtain ⟨b, hb⟩ := ih t2 (by simpa using h) a ha'
        exact ⟨b, List.mem_cons_of_mem _ hb⟩

theorem rrAux_succ (rand : Nat → Nat → Nat) (n : Nat) (lanes : List Lane)
    (fuel : Nat) (unmatched : List (Car × Car)) (hn : Nat)
    (hne : unmatched.isEmpty = false) :
    rrAux rand n lanes (fuel + 1) unmatched hn
      = ((((sortCars (rrSelect n unmatched).1).zip
            ((secure_shuffle (rand hn) lanes).take
              (rrSelect n unmatched).1.length)).map
            (fun q => Assignment.mk hn q.1 q.2))
          ++ (rrAux rand n lanes fuel
              (unmatched.filter (fun q => q ∉ (rrSelect n unmatched).2))
              (hn + 1)).1,
        (rrAux rand n lanes fuel
            (unmatched.filter (fun q => q ∉ (rrSelect n unmatched).2))
            (hn + 1)).2) := by
  rw [rrAux]
  rw [if_neg (by simp [hne])]

theorem rrAux_correct (rand : Nat → Nat → Nat) (n : Nat) (lanes : List Lane)
    (h2 : 2 ≤ n) (hlanes : n ≤ lanes.length) :
    ∀ (fuel : Nat) (unmatched : List (Car × Car)) (hn : Nat),
      unmatched.length ≤ fuel →
      ((rrAux rand n lanes fuel unmatched hn).2 = [] ∧
        ∀ q ∈ unmatched, ∃ h l1 l2,
          Assignment.mk h q.1 l1 ∈ (rrAux rand n lanes fuel unmatched hn).1 ∧
          Assignment.mk h q.2 l2 ∈ (rrAux rand n lanes fuel unmatched hn).1) := by
  intro fuel
  induction fuel with
  | zero =>
    intro unmatched hn hlen
    have hnil : unmatched = [] := by
      cases unmatched with
      | nil => rfl
      | cons a l => simp at hlen
    subst hnil
    exact ⟨rfl, by simp⟩
  | succ fuel ih =>
    intro unmatched hn hlen
    by_cases hemp : unmatched.isEmpty = true
    · have hnil : unmatched = [] := by simpa [List.isEmpty_iff] using hemp
      subst hnil
      exact ⟨by rw [rrAux]; rfl, by simp⟩
    · have hne : unmatched ≠ [] := by simpa [List.isEmpty_iff] using hemp
      rw [Bool.not_eq_true] at hemp
      rw [rrAux_succ rand n lanes fuel unmatched hn hemp]
      have hsel : rrSelect n unmatched = greedyScan n unmatched :=
        rrSelect_eq_greedy n unmatched hne h2
      have hdec : (unmatched.filter
          (fun q => q ∉ (rrSelect n unmatched).2)).length < unmatched.length := by
        apply List.length_filter_lt_length_iff_exists.mpr
        cases unmatched with
        | nil => exact absurd rfl hne
        | cons p rest =>
          refine ⟨p, List.mem_cons_self _ _, ?_⟩
          rw [hsel]
          simp only [decide_eq_true_eq, Decidable.not_not]
          exact greedyScan_head_used n p rest h2
      have hcars_le : (rrSelect n unmatched).1.length ≤ n := by
        rw [hsel]
        exact greedyScan_cars_le n unmatched
      have hzip : ∀ c ∈ (rrSelect n unmatched).1, ∃ lane,
          Assignment.mk hn c lane ∈ ((sortCars (rrSelect n unmatched).1).zip
            ((secure_shuffle (rand hn) lanes).take
              (rrSelect n unmatched).1.length)).map
            (fun q => Assignment.mk hn q.1 q.2) := by
        intro c hc
        have hsort_perm := List.perm_insertionSort carLt (rrSelect n unmatched).1
        have hc' : c ∈ sortCars (rrSelect n unmatched).1 := by
          unfold sortCars
          exact hsort_perm.mem_iff.mpr hc
        have hlen_eq : (sortCars (rrSelect n unmatched).1).length
            = ((secure_shuffle (rand hn) lanes).take
              (rrSelect n unmatched).1.length).length := by
          rw [List.length_take, secure_shuffle_length]
          unfold sortCars
          rw [hsort_perm.length_eq]
          omega
        obtain ⟨lane, hlane⟩ := mem_zip_of_mem_left _ _ hlen_eq c hc'
        exact ⟨lane, List.mem_map.mpr ⟨(c, lane), hlane, rfl⟩⟩
      obtain ⟨ih1, ih2⟩ := ih (unmatched.filter
        (fun q => q ∉ (rrSelect n unmatched).2)) (hn + 1) (by omega)
      constructor
      · exact ih1
      · intro q hq
        by_cases hq2 : q ∈ (rrSelect n unmatched).2
        · have hcom : q.1 ∈ (rrSelect n unmatched).1 ∧
              q.2 ∈ (rrSelect n unmatched).1 := by
            rw [hsel] at hq2 ⊢
            exact greedyScan_committed n unmatched q hq2
          obtain ⟨l1, hl1⟩ := hzip q.1 hcom.1
          obtain ⟨l2, hl2⟩ := hzip q.2 hcom.2
          exact ⟨hn, l1, l2, List.mem_append_left _ hl1,
            List.mem_append_left _ hl2⟩
        · have hq' : q ∈ unmatched.filter
              (fun x => x ∉ (rrSelect n unmatched).2) :=
            List.mem_filter.mpr ⟨hq, by simpa using hq2⟩
          obtain ⟨h, l1, l2, m1, m2⟩ := ih2 q hq'
          exact ⟨h, l1, l2, List.mem_append_right _ m1,
            List.mem_append_right _ m2⟩

theorem combinations2_complete {α : Type} :
    ∀ (l : List α) (a b : α), a ∈ l → b ∈ l → a ≠ b →
      (a, b) ∈ combinations2 l ∨ (b, a) ∈ combinations2 l := by
  intro l
  induction l with
  | nil =>
    intro a b ha
    simp at ha
  | cons x xs ih =>
    intro a b ha hb hne
    rcases List.mem_cons.mp ha with rfl | ha'
    · have hb' : b ∈ xs := by
        rcases List.mem_cons.mp hb with rfl | hb'
        · exact absurd rfl hne
        · exact hb'
      left
      unfold combinations2
      exact List.mem_append_left _ (List.mem_map.mpr ⟨b, hb', rfl⟩)
    · rcases List.mem_cons.mp hb with rfl | hb'
      · right
        unfold combinations2
        exact List.mem_append_left _ (List.mem_map.mpr ⟨a, ha', rfl⟩)
      · rcases ih a b ha' hb' hne with h | h
        · left
          unfold combinations2
          exact List.mem_append_right _ h
        · right
          unfold combinations2
          exact List.mem_append_right _ h

/-- C2: for every car list with more than `num_lanes` cars and `num_lanes ≥ 2`,
the round-robin pairing packer terminates — with fuel equal to the number of
matchups the `while unmatched:` loop always ends with the unmatched set
empty — and its output realizes every unordered pair of distinct input cars:
both cars of each pair receive rows carrying the same heat number. -/
theorem C2_round_robin_coverage (rand : Nat → Nat → Nat) (cars : List Car)
    (num_lanes : Nat) (h2 : 2 ≤ num_lanes) (hgt : num_lanes < cars.length) :
    (rrAux rand num_lanes (laneLabelsRR num_lanes)
        (combinations2 cars).length (combinations2 cars) 1).2 = [] ∧
      ∀ c1 ∈ cars, ∀ c2 ∈ cars, c1 ≠ c2 →
        ∃ h l1 l2,
          Assignment.mk h c1 l1
            ∈ generate_round_robin_heats rand cars num_lanes ∧
          Assignment.mk h c2 l2
            ∈ generate_round_robin_heats rand cars num_lanes := by
  have hlanes : num_lanes ≤ (laneLabelsRR num_lanes).length := by
    simp [laneLabelsRR]
  obtain ⟨hterm, hcov⟩ := rrAux_correct rand num_lanes (laneLabelsRR num_lanes)
    h2 hlanes (combinations2 cars).length (combinations2 cars) 1 le_rfl
  refine ⟨hterm, ?_⟩
  intro c1 hc1 c2 hc2 hne
  have hgen : generate_round_robin_heats rand cars num_lanes
      = (rrAux rand num_lanes (laneLabelsRR num_lanes)
          (combinations2 cars).length (combinations2 cars) 1).1 := by
    unfold generate_round_robin_heats
    rw [if_neg (by omega)]
  rcases combinations2_complete cars c1 c2 hc1 hc2 hne with hp | hp
  · obtain ⟨h, l1, l2, m1, m2⟩ := hcov (c1, c2) hp
    exact ⟨h, l1, l2, by rw [hgen]; exact m1, by rw [hgen]; exact m2⟩
  · obtain ⟨h, l1, l2, m1, m2⟩ := hcov (c2, c1) hp
    exact ⟨h, l2, l1, by rw [hgen]; exact m2, by rw [hgen]; exact m1⟩

theorem C2_round_robin_coverage_witness :
    (2 ≤ 2 ∧ 2 < (["A", "B", "C"] : List Car).length) ∧
      ((rrAux (fun _ _ => 0) 2 (laneLabelsRR 2)
          (combinations2 (["A", "B", "C"] : List Car)).length
          (combinations2 (["A", "B", "C"] : List Car)) 1).2 = [] ∧
        ∀ c1 ∈ (["A", "B", "C"] : List Car),
          ∀ c2 ∈ (["A", "B", "C"] : List Car), c1 ≠ c2 →
          ∃ h l1 l2,
            Assignment.mk h c1 l1
              ∈ generate_round_robin_heats (fun _ _ => 0) ["A", "B", "C"] 2 ∧
            Assignment.mk h c2 l2
              ∈ generate_round_robin_heats (fun _ _ => 0) ["A", "B", "C"] 2) :=
  ⟨⟨by decide, by decide⟩,
    C2_round_robin_coverage (fun _ _ => 0) ["A", "B", "C"] 2
      (by decide) (by decide)⟩

theorem getD_drop_eq {α : Type} (l : List α) (j k : Nat) (d : α) :
    (l.drop j).getD k d = l.getD (j + k) d := by
  simp [List.getD_eq_getElem?_getD, List.getElem?_drop]

theorem getD_take_eq {α : Type} (l : List α) (j k : Nat) (d : α) (h : k < j) :
    (l.take j).getD k d = l.getD k d := by
  simp [List.getD_eq_getElem?_getD, List.getElem?_take, h]

theorem rot_getD (cars : List Car) (j k : Nat) (hj : j < cars.length)
    (hk : k < cars.length) :
    (cars.drop j ++ cars.take j).getD k ""
      = cars.getD ((j + k) % cars.length) "" := by
  by_cases hlt : j + k < cars.length
  · rw [List.getD_append _ _ _ k (by rw [List.length_drop]; omega)]
    rw [getD_drop_eq, Nat.mod_eq_of_lt hlt]
  · have hdl : (cars.drop j).length ≤ k := by rw [List.length_drop]; omega
    rw [List.getD_append_right _ _ _ k hdl, List.length_drop]
    have hidx : k - (cars.length - j) < j := by omega
    rw [getD_take_eq _ _ _ _ hidx]
    have hge : cars.length ≤ j + k := by omega
    rw [Nat.mod_eq_sub_mod hge, Nat.mod_eq_of_lt (by omega)]
    congr 1
    omega

theorem heads_of_nonempty {α : Type} (d : α) :
    ∀ (rows : List (List α)), (∀ r ∈ rows, r ≠ []) →
      heads? rows = some (rows.map (fun r => r.headD d)) := by
  intro rows
  induction rows with
  | nil => intro _; rfl
  | cons r rest ih =>
    intro h
    cases r with
    | nil => exact absurd rfl (h [] (by simp))
    | cons a t =>
      rw [List.map_cons]
      show (heads? rest).map (a :: ·) = _
      rw [ih (fun r hr => h r (by simp [hr]))]
      rfl

theorem zipStar_heads_none {α : Type} (r₀ : List α) (rest : List (List α))
    (h : heads? (r₀ :: rest) = none) : zipStar (r₀ :: rest) = [] := by
  rw [zipStar]
  split
  · rfl
  · rename_i hds heq
    rw [h] at heq
    exact Option.noConfusion heq

theorem zipStar_heads_some {α : Type} (r₀ : List α) (rest : List (List α))
    (hds : List α) (h : heads? (r₀ :: rest) = some hds) :
    zipStar (r₀ :: rest) = hds :: zipStar ((r₀ :: rest).map (fun r => r.drop 1)) := by
  rw [zipStar]
  split
  · rename_i heq
    rw [h] at heq
    exact Option.noConfusion heq
  · rename_i hds' heq
    rw [h] at heq
    cases heq
    rfl

theorem zipStar_closed {α : Type} (d : α) :
    ∀ (m : Nat) (rows : List (List α)), rows ≠ [] →
      (∀ r ∈ rows, r.length = m) →
      zipStar rows = (List.range m).map (fun k => rows.map (fun r => r.getD k d)) := by
  intro m
  induction m with
  | zero =>
    intro rows hne hall
    cases rows with
    | nil => exact absurd rfl hne
    | cons r₀ rest =>
      have h0 : r₀ = [] := List.eq_nil_of_length_eq_zero (hall r₀ (by simp))
      subst h0
      rw [zipStar_heads_none [] rest rfl]
      simp
  | succ m ih =>
    intro rows hne hall
    cases rows with
    | nil => exact absurd rfl hne
    | cons r₀ rest =>
      have hnonempty : ∀ r ∈ r₀ :: rest, r ≠ [] := by
        intro r hr he
        have hl := hall r hr
        rw [he] at hl
        simp at hl
      have hh := heads_of_nonempty d (r₀ :: rest) hnonempty
      rw [zipStar_heads_some _ _ _ hh]
      have hmapne : (r₀ :: rest).map (fun r => r.drop 1) ≠ [] := by simp
      have hmaplen : ∀ r ∈ (r₀ :: rest).map (fun r => r.drop 1), r.length = m := by
        intro r hr
        rcases List.mem_map.mp hr with ⟨s, hs, rfl⟩
        rw [List.length_drop, hall s hs]
        omega
      rw [ih _ hmapne hmaplen]
      rw [List.range_succ_eq_map]
      have hsplit : List.map (fun k => List.map (fun r => r.getD k d) (r₀ :: rest))
          (0 :: List.map Nat.succ (List.range m))
          = List.map (fun r => r.getD 0 d) (r₀ :: rest)
            :: List.map ((fun k => List.map (fun r => r.getD k d) (r₀ :: rest))
                ∘ Nat.succ) (List.range m) := by
        rw [List.map_cons, List.map_map]
      rw [hsplit]
      congr 1
      · apply List.map_congr_left
        intro r _
        cases r <;> rfl
      · apply List.map_congr_left
        intro k _
        rw [List.map_map]
        apply List.map_congr_left
        intro r _
        simp only [Function.comp_apply]
        rw [getD_drop_eq, Nat.add_comm]

theorem flatMap_congr_left {α β : Type} {l : List α} {f g : α → List β}
    (h : ∀ a ∈ l, f a = g a) : l.flatMap f = l.flatMap g := by
  induction l with
  | nil => rfl
  | cons a t ih =>
    rw [List.flatMap_cons, List.flatMap_cons, h a (by simp),
      ih (fun x hx => h x (by simp [hx]))]

theorem enumFromL_flatMap {β γ : Type} (db : β) (g : Nat → β → List γ) :
    ∀ (L : List β) (s : Nat),
      (enumFromL s L).flatMap (fun p => g p.1 p.2)
        = (List.range L.length).flatMap (fun i => g (s + i) (L.getD i db)) := by
  intro L
  induction L with
  | nil => intro s; rfl
  | cons a t ih =>
    intro s
    rw [show enumFromL s (a :: t) = (s, a) :: enumFromL (s + 1) t from rfl]
    rw [List.flatMap_cons, ih (s + 1)]
    rw [List.length_cons, List.range_succ_eq_map, List.flatMap_cons,
      List.flatMap_map]
    have h0 : g (s + 0) ((a :: t).getD 0 db) = g s a := by
      rw [Nat.add_zero, List.getD_cons_zero]
    rw [h0]
    congr 1
    apply flatMap_congr_left
    intro i _
    show g (s + 1 + i) (t.getD i db) = g (s + (i + 1)) ((a :: t).getD (i + 1) db)
    rw [List.getD_cons_succ]
    congr 1
    omega

theorem getD_map_range {α : Type} (f : Nat → α) (d : α) (m k : Nat) (h : k < m) :
    ((List.range m).map f).getD k d = f k := by
  rw [List.getD_eq_getElem _ _ (by simp [h])]
  simp

theorem zip_map_range_take {α β : Type} (d2 : β) :
    ∀ (m : Nat) (f : Nat → α) (l2 : List β), m ≤ l2.length →
      ((List.range m).map f).zip (l2.take m)
        = (List.range m).map (fun j => (f j, l2.getD j d2)) := by
  intro m
  induction m with
  | zero => intro f l2 _; rfl
  | succ m ih =>
    intro f l2 hle
    cases l2 with
    | nil => simp at hle
    | cons y t2 =>
      have hle' : m ≤ t2.length := by
        rw [List.length_cons] at hle
        omega
      rw [List.range_succ_eq_map, List.map_cons, List.map_map,
        List.take_succ_cons, List.zip_cons_cons, ih (f ∘ Nat.succ) t2 hle']
      have hsplit : List.map (fun j => (f j, (y :: t2).getD j d2))
          (0 :: List.map Nat.succ (List.range m))
          = (f 0, (y :: t2).getD 0 d2)
            :: List.map ((fun j => (f j, (y :: t2).getD j d2)) ∘ Nat.succ)
              (List.range m) := by
        rw [List.map_cons, List.map_map]
      rw [hsplit]
      congr 1

theorem smallGroup_closed (cars : List Car) (lanes : List Lane)
    (hpos : 0 < cars.length) (hle : cars.length ≤ lanes.length) :
    _generate_small_group_heats cars lanes
      = (List.range cars.length).flatMap (fun k =>
          (List.range cars.length).map (fun j =>
            Assignment.mk (1 + k)
              (cars.getD ((j + k) % cars.length) "")
              (lanes.getD j ""))) := by
  rw [show _generate_small_group_heats cars lanes
      = (enumFromL 1 (zipStar ((List.range cars.length).map
          (fun i => cars.drop i ++ cars.take i)))).flatMap (fun p =>
        (p.2.zip (lanes.take cars.length)).map
          (fun q => Assignment.mk p.1 q.1 q.2)) from rfl]
  have hrotlen : ∀ r ∈ (List.range cars.length).map
      (fun i => cars.drop i ++ cars.take i), r.length = cars.length := by
    intro r hr
    rcases List.mem_map.mp hr with ⟨i, hi, rfl⟩
    have hilt : i < cars.length := List.mem_range.mp hi
    rw [List.length_append, List.length_drop, List.length_take,
      Nat.min_eq_left (Nat.le_of_lt hilt)]
    omega
  have hrotne : (List.range cars.length).map
      (fun i => cars.drop i ++ cars.take i) ≠ [] := by
    intro he
    rw [List.map_eq_nil_iff, List.range_eq_nil] at he
    omega
  rw [zipStar_closed "" cars.length _ hrotne hrotlen]
  rw [enumFromL_flatMap ([] : List Car)
    (fun hn col => (col.zip (lanes.take cars.length)).map
      (fun q => Assignment.mk hn q.1 q.2))]
  simp only [List.length_map, List.length_range]
  apply flatMap_congr_left
  intro k hk
  have hklt : k < cars.length := List.mem_range.mp hk
  rw [getD_map_range _ _ _ _ hklt, List.map_map]
  have hcol : List.map ((fun r => r.getD k "")
        ∘ fun i => cars.drop i ++ cars.take i) (List.range cars.length)
      = (List.range cars.length).map
          (fun j => cars.getD ((j + k) % cars.length) "") := by
    apply List.map_congr_left
    intro j hj
    have hjlt : j < cars.length := List.mem_range.mp hj
    show (cars.drop j ++ cars.take j).getD k ""
      = cars.getD ((j + k) % cars.length) ""
    exact rot_getD cars j k hjlt hklt
  rw [hcol, zip_map_range_take "" cars.length _ lanes hle, List.map_map]
  rfl

theorem countP_flatMap {α β : Type} (p : β → Bool) (f : α → List β) :
    ∀ l : List α, (l.flatMap f).countP p
      = (l.map (fun a => (f a).countP p)).sum := by
  intro l
  induction l with
  | nil => rfl
  | cons a t ih =>
    rw [List.flatMap_cons, List.countP_append, List.map_cons, List.sum_cons, ih]

theorem sum_map_ite {α : Type} (p : α → Bool) :
    ∀ l : List α, (l.map (fun a => if p a then (1 : Nat) else 0)).sum
      = l.countP p := by
  intro l
  induction l with
  | nil => rfl
  | cons a t ih =>
    rw [List.map_cons, List.sum_cons, ih, List.countP_cons]
    by_cases h : p a
    · simp [h]
      omega
    · simp [h]

theorem sum_map_const_nat {α : Type} (c : Nat) :
    ∀ l : List α, (l.map (fun _ => c)).sum = l.length * c := by
  intro l
  induction l with
  | nil => simp
  | cons a t ih =>
    rw [List.map_cons, List.sum_cons, ih, List.length_cons]
    ring

theorem nodup_getD_inj {α : Type} (l : List α) (d : α) (hnd : l.Nodup)
    {i j : Nat} (hi : i < l.length) (hj : j < l.length)
    (h : l.getD i d = l.getD j d) : i = j := by
  rw [List.getD_eq_getElem l d hi, List.getD_eq_getElem l d hj] at h
  exact hnd.getElem_inj_iff.mp h

theorem countP_range_mod (n a m : Nat) (hm : m < n) :
    (List.range n).countP (fun k => (a + k) % n == m) = 1 := by
  have hn : 0 < n := lt_of_le_of_lt (Nat.zero_le m) hm
  have hk₀ : (n + m - a % n) % n < n := Nat.mod_lt _ hn
  have ha' : a % n < n := Nat.mod_lt _ hn
  have ha'le : a % n ≤ n + m := by omega
  have hsat : (a + (n + m - a % n) % n) % n = m := by
    have h1 : a % n + (n + m - a % n) % n ≡ a % n + (n + m - a % n) [MOD n] :=
      Nat.ModEq.add_left _ (Nat.mod_modEq _ _)
    have h2 : a % n + (n + m - a % n) = n + m := Nat.add_sub_cancel' ha'le
    have h3 : a + (n + m - a % n) % n ≡ a % n + (n + m - a % n) % n [MOD n] :=
      Nat.ModEq.add_right _ (Nat.mod_modEq a n).symm
    have h2' : a % n + (n + m - a % n) ≡ n + m [MOD n] := by rw [h2]
    have h4 : a + (n + m - a % n) % n ≡ n + m [MOD n] := h3.trans (h1.trans h2')
    have h5 : (a + (n + m - a % n) % n) % n = (n + m) % n := h4
    rw [h5, Nat.add_mod_left, Nat.mod_eq_of_lt hm]
  have huniq : ∀ k, k < n → (a + k) % n = m → k = (n + m - a % n) % n := by
    intro k hk hkm
    have he : a + k ≡ a + (n + m - a % n) % n [MOD n] := by
      show (a + k) % n = (a + (n + m - a % n) % n) % n
      rw [hkm, hsat]
    have h6 : k ≡ (n + m - a % n) % n [MOD n] := Nat.ModEq.add_left_cancel' a he
    have h7 : k % n = (n + m - a % n) % n % n := h6
    rwa [Nat.mod_eq_of_lt hk, Nat.mod_eq_of_lt hk₀] at h7
  have hcongr : (List.range n).countP (fun k => (a + k) % n == m)
      = (List.range n).countP (fun k => k == (n + m - a % n) % n) := by
    apply List.countP_congr
    intro k hk
    have hklt := List.mem_range.mp hk
    constructor
    · intro h
      have := huniq k hklt (by simpa using h)
      simpa using this
    · intro h
      have hkk : k = (n + m - a % n) % n := by simpa using h
      subst hkk
      simpa using hsat
  rw [hcongr]
  have hcnt : (List.range n).countP (fun k => k == (n + m - a % n) % n)
      = (List.range n).count ((n + m - a % n) % n) := rfl
  rw [hcnt, List.count_eq_one_of_mem (List.nodup_range n)
    (List.mem_range.mpr hk₀)]

theorem sum_ite_range_eq (n t : Nat) (ht : t < n) :
    ((List.range n).map (fun k => if k = t then (1 : Nat) else 0)).sum = 1 := by
  have hconv : (List.range n).map (fun k => if k = t then (1 : Nat) else 0)
      = (List.range n).map (fun k => if (k == t) = true then (1 : Nat) else 0) := by
    apply List.map_congr_left
    intro k _
    by_cases h : k = t <;> simp [h]
  rw [hconv, sum_map_ite (fun k => k == t)]
  have hcnt : (List.range n).countP (fun k => k == t)
      = (List.range n).count t := rfl
  rw [hcnt, List.count_eq_one_of_mem (List.nodup_range n)
    (List.mem_range.mpr ht)]

theorem sum_ite_mod (n a m : Nat) (hm : m < n) :
    ((List.range n).map
      (fun k => if (a + k) % n = m then (1 : Nat) else 0)).sum = 1 := by
  have hconv : (List.range n).map (fun k => if (a + k) % n = m then (1 : Nat) else 0)
      = (List.range n).map
          (fun k => if ((a + k) % n == m) = true then (1 : Nat) else 0) := by
    apply List.map_congr_left
    intro k _
    by_cases h : (a + k) % n = m <;> simp [h]
  rw [hconv, sum_map_ite (fun k => (a + k) % n == m)]
  exact countP_range_mod n a m hm

theorem small_count_heat_car (cars : List Car) (lanes : List Lane)
    (hnd : cars.Nodup) (hpos : 0 < cars.length) (hle : cars.length ≤ lanes.length)
    (c : Car) (hc : c ∈ cars) (hn : Nat) (h1 : 1 ≤ hn) (h2 : hn ≤ cars.length) :
    (_generate_small_group_heats cars lanes).countP
      (fun r => r.heat == hn && r.car == c) = 1 := by
  obtain ⟨m, hm, hcm⟩ := List.mem_iff_getElem.mp hc
  have hgm : cars.getD m "" = c := by rw [List.getD_eq_getElem _ _ hm, hcm]
  rw [smallGroup_closed cars lanes hpos hle, countP_flatMap]
  have hentry : ∀ k ∈ List.range cars.length,
      ((List.range cars.length).map (fun j =>
        Assignment.mk (1 + k) (cars.getD ((j + k) % cars.length) "")
          (lanes.getD j ""))).countP (fun r => r.heat == hn && r.car == c)
      = if k = hn - 1 then (1 : Nat) else 0 := by
    intro k hk
    have hklt := List.mem_range.mp hk
    rw [List.countP_map]
    by_cases hkh : k = hn - 1
    · subst hkh
      rw [if_pos rfl]
      have hcongr : (List.range cars.length).countP
          ((fun r => r.heat == hn && r.car == c) ∘ (fun j =>
            Assignment.mk (1 + (hn - 1))
              (cars.getD ((j + (hn - 1)) % cars.length) "") (lanes.getD j "")))
          = (List.range cars.length).countP
              (fun j => ((hn - 1) + j) % cars.length == m) := by
        apply List.countP_congr
        intro j hj
        have hjlt := List.mem_range.mp hj
        simp only [Function.comp_apply, Bool.and_eq_true, beq_iff_eq]
        constructor
        · rintro ⟨-, hcar⟩
          have hcar' : cars.getD ((j + (hn - 1)) % cars.length) "" = c := hcar
          have hmod : (j + (hn - 1)) % cars.length = m := by
            apply nodup_getD_inj cars "" hnd (Nat.mod_lt _ hpos) hm
            rw [hcar', hgm]
          rw [Nat.add_comm] at hmod
          exact hmod
        · intro hjm
          refine ⟨?_, ?_⟩
          · show 1 + (hn - 1) = hn
            omega
          · show cars.getD ((j + (hn - 1)) % cars.length) "" = c
            rw [Nat.add_comm j (hn - 1), hjm, hgm]
      rw [hcongr]
      exact countP_range_mod cars.length (hn - 1) m hm
    · rw [if_neg hkh]
      apply List.countP_eq_zero.mpr
      intro j hj hpred
      simp only [Function.comp_apply, Bool.and_eq_true, beq_iff_eq] at hpred
      have hheat : 1 + k = hn := hpred.1
      omega
  rw [List.map_congr_left hentry, sum_ite_range_eq cars.length (hn - 1) (by omega)]

theorem small_count_car_lane (cars : List Car) (lanes : List Lane)
    (hndc : cars.Nodup) (hndl : lanes.Nodup) (hpos : 0 < cars.length)
    (hle : cars.length ≤ lanes.length)
    (c : Car) (hc : c ∈ cars) (j₀ : Nat) (hj₀ : j₀ < cars.length) :
    (_generate_small_group_heats cars lanes).countP
      (fun r => r.car == c && r.lane == lanes.getD j₀ "") = 1 := by
  obtain ⟨m, hm, hcm⟩ := List.mem_iff_getElem.mp hc
  have hgm : cars.getD m "" = c := by rw [List.getD_eq_getElem _ _ hm, hcm]
  rw [smallGroup_closed cars lanes hpos hle, countP_flatMap]
  have hentry : ∀ k ∈ List.range cars.length,
      ((List.range cars.length).map (fun j =>
        Assignment.mk (1 + k) (cars.getD ((j + k) % cars.length) "")
          (lanes.getD j ""))).countP
        (fun r => r.car == c && r.lane == lanes.getD j₀ "")
      = if (j₀ + k) % cars.length = m then (1 : Nat) else 0 := by
    intro k hk
    have hklt := List.mem_range.mp hk
    rw [List.countP_map]
    by_cases hcar : (j₀ + k) % cars.length = m
    · rw [if_pos hcar]
      have hcongr : (List.range cars.length).countP
          ((fun r => r.car == c && r.lane == lanes.getD j₀ "") ∘ (fun j =>
            Assignment.mk (1 + k) (cars.getD ((j + k) % cars.length) "")
              (lanes.getD j "")))
          = (List.range cars.length).countP (fun j => j == j₀) := by
        apply List.countP_congr
        intro j hj
        have hjlt := List.mem_range.mp hj
        simp only [Function.comp_apply, Bool.and_eq_true, beq_iff_eq]
        constructor
        · rintro ⟨-, hlane⟩
          have hlane' : lanes.getD j "" = lanes.getD j₀ "" := hlane
          exact nodup_getD_inj lanes "" hndl (by omega) (by omega) hlane'
        · intro hjj
          subst hjj
          refine ⟨?_, rfl⟩
          show cars.getD ((j + k) % cars.length) "" = c
          rw [hcar, hgm]
      rw [hcongr]
      have hcnt : (List.range cars.length).countP (fun j => j == j₀)
          = (List.range cars.length).count j₀ := rfl
      rw [hcnt, List.count_eq_one_of_mem (List.nodup_range _)
        (List.mem_range.mpr hj₀)]
    · rw [if_neg hcar]
      apply List.countP_eq_zero.mpr
      intro j hj hpred
      have hjlt := List.mem_range.mp hj
      simp only [Function.comp_apply, Bool.and_eq_true, beq_iff_eq] at hpred
      obtain ⟨hcarj, hlanej⟩ := hpred
      have hjj : j = j₀ := nodup_getD_inj lanes "" hndl (by omega) (by omega) hlanej
      subst hjj
      apply hcar
      apply nodup_getD_inj cars "" hndc (Nat.mod_lt _ hpos) hm
      rw [hcarj, hgm]
  rw [List.map_congr_left hentry]
  exact sum_ite_mod cars.length j₀ m hm

/-- C3: for a duplicate-free car list of size n with 2 ≤ n ≤ (number of lane
labels), `_generate_small_group_heats` produces n·n rows whose heat numbers
are exactly 1..n, uses only the first n lane labels, places every car exactly
once in every one of those heats (hence each car appears in exactly n heats)
and exactly once on each of the n used lanes, and every pair of cars
co-occurs in every heat. -/
theorem C3_small_group_rotation (cars : List Car) (lane_labels : List Lane)
    (h2 : 2 ≤ cars.length) (hle : cars.length ≤ lane_labels.length)
    (hndc : cars.Nodup) (hndl : lane_labels.Nodup) :
    (_generate_small_group_heats cars lane_labels).length
        = cars.length * cars.length ∧
    (∀ hn, hn ∈ (_generate_small_group_heats cars lane_labels).map (·.heat)
      ↔ (1 ≤ hn ∧ hn ≤ cars.length)) ∧
    (∀ r ∈ _generate_small_group_heats cars lane_labels,
      r.lane ∈ lane_labels.take cars.length) ∧
    (∀ c ∈ cars, ∀ hn, 1 ≤ hn → hn ≤ cars.length →
      (_generate_small_group_heats cars lane_labels).countP
        (fun r => r.heat == hn && r.car == c) = 1) ∧
    (∀ c ∈ cars, ∀ l ∈ lane_labels.take cars.length,
      (_generate_small_group_heats cars lane_labels).countP
        (fun r => r.car == c && r.lane == l) = 1) ∧
    (∀ c1 ∈ cars, ∀ c2 ∈ cars, ∀ hn, 1 ≤ hn → hn ≤ cars.length →
      ∃ r1 ∈ _generate_small_group_heats cars lane_labels,
        ∃ r2 ∈ _generate_small_group_heats cars lane_labels,
          r1.heat = hn ∧ r2.heat = hn ∧ r1.car = c1 ∧ r2.car = c2) := by
  have hpos : 0 < cars.length := by omega
  have hiii : ∀ c ∈ cars, ∀ hn, 1 ≤ hn → hn ≤ cars.length →
      (_generate_small_group_heats cars lane_labels).countP
        (fun r => r.heat == hn && r.car == c) = 1 :=
    fun c hc hn hn1 hn2 =>
      small_count_heat_car cars lane_labels hndc hpos hle c hc hn hn1 hn2
  refine ⟨?_, ?_, ?_, hiii, ?_, ?_⟩
  · rw [smallGroup_closed _ _ hpos hle, List.length_flatMap]
    have hconst : ∀ k ∈ List.range cars.length,
        (List.length ∘ (fun k => (List.range cars.length).map (fun j =>
          Assignment.mk (1 + k) (cars.getD ((j + k) % cars.length) "")
            (lane_labels.getD j "")))) k = cars.length := by
      intro k _
      simp
    rw [List.map_congr_left hconst, sum_map_const_nat, List.length_range]
  · intro hn0
    rw [smallGroup_closed _ _ hpos hle]
    constructor
    · intro h
      rcases List.mem_map.mp h with ⟨r, hr, hrh⟩
      rcases List.mem_flatMap.mp hr with ⟨k, hk, hrk⟩
      rcases List.mem_map.mp hrk with ⟨j, hj, hrj⟩
      have hklt := List.mem_range.mp hk
      rw [← hrj] at hrh
      have hk1 : 1 + k = hn0 := hrh
      omega
    · rintro ⟨hge, hlt⟩
      apply List.mem_map.mpr
      refine ⟨Assignment.mk (1 + (hn0 - 1))
        (cars.getD ((0 + (hn0 - 1)) % cars.length) "")
        (lane_labels.getD 0 ""), ?_, ?_⟩
      · apply List.mem_flatMap.mpr
        refine ⟨hn0 - 1, List.mem_range.mpr (by omega), ?_⟩
        exact List.mem_map.mpr ⟨0, List.mem_range.mpr (by omega), rfl⟩
      · show 1 + (hn0 - 1) = hn0
        omega
  · rw [smallGroup_closed _ _ hpos hle]
    intro r hr
    rcases List.mem_flatMap.mp hr with ⟨k, hk, hrk⟩
    rcases List.mem_map.mp hrk with ⟨j, hj, hrj⟩
    have hjlt := List.mem_range.mp hj
    rw [← hrj]
    show lane_labels.getD j "" ∈ lane_labels.take cars.length
    have hjlen : j < (lane_labels.take cars.length).length := by
      rw [List.length_take]
      omega
    have hget : (lane_labels.take cars.length).get ⟨j, hjlen⟩
        = lane_labels.getD j "" := by
      rw [List.get_eq_getElem, List.getElem_take,
        List.getD_eq_getElem _ _ (by omega)]
    rw [← hget]
    exact List.get_mem _ j hjlen
  · intro c hc l hl
    obtain ⟨j₀, hj₀, hji⟩ := List.mem_iff_getElem.mp hl
    have hj₀n : j₀ < cars.length := by
      rw [List.length_take] at hj₀
      omega
    have hlj : lane_labels.getD j₀ "" = l := by
      rw [List.getD_eq_getElem _ _ (by omega), ← hji, List.getElem_take]
    rw [← hlj]
    exact small_count_car_lane cars lane_labels hndc hndl hpos hle c hc j₀ hj₀n
  · intro c1 hc1 c2 hc2 hn0 hge hlt
    have hcnt1 := hiii c1 hc1 hn0 hge hlt
    have hcnt2 := hiii c2 hc2 hn0 hge hlt
    have e1 : 0 < (_generate_small_group_heats cars lane_labels).countP
        (fun r => r.heat == hn0 && r.car == c1) := by rw [hcnt1]; omega
    have e2 : 0 < (_generate_small_group_heats cars lane_labels).countP
        (fun r => r.heat == hn0 && r.car == c2) := by rw [hcnt2]; omega
    obtain ⟨r1, hr1, hp1⟩ := List.countP_pos.mp e1
    obtain ⟨r2, hr2, hp2⟩ := List.countP_pos.mp e2
    simp only [Bool.and_eq_true, beq_iff_eq] at hp1 hp2
    exact ⟨r1, hr1, r2, hr2, hp1.1, hp2.1, hp1.2, hp2.2⟩

theorem C3_small_group_rotation_witness :
    (2 ≤ (["A", "B", "C"] : List Car).length
        ∧ (["A", "B", "C"] : List Car).length
            ≤ (["A", "B", "C", "D"] : List Lane).length) ∧
    ((_generate_small_group_heats ["A", "B", "C"] ["A", "B", "C", "D"]).length
        = (["A", "B", "C"] : List Car).length
            * (["A", "B", "C"] : List Car).length ∧
      (∀ hn, hn ∈ (_generate_small_group_heats ["A", "B", "C"]
          ["A", "B", "C", "D"]).map (·.heat)
        ↔ (1 ≤ hn ∧ hn ≤ (["A", "B", "C"] : List Car).length)) ∧
      (∀ r ∈ _generate_small_group_heats ["A", "B", "C"] ["A", "B", "C", "D"],
        r.lane ∈ (["A", "B", "C", "D"] : List Lane).take
          (["A", "B", "C"] : List Car).length) ∧
      (∀ c ∈ (["A", "B", "C"] : List Car), ∀ hn, 1 ≤ hn →
        hn ≤ (["A", "B", "C"] : List Car).length →
        (_generate_small_group_heats ["A", "B", "C"]
          ["A", "B", "C", "D"]).countP
            (fun r => r.heat == hn && r.car == c) = 1) ∧
      (∀ c ∈ (["A", "B", "C"] : List Car),
        ∀ l ∈ (["A", "B", "C", "D"] : List Lane).take
          (["A", "B", "C"] : List Car).length,
        (_generate_small_group_heats ["A", "B", "C"]
          ["A", "B", "C", "D"]).countP
            (fun r => r.car == c && r.lane == l) = 1) ∧
      (∀ c1 ∈ (["A", "B", "C"] : List Car), ∀ c2 ∈ (["A", "B", "C"] : List Car),
        ∀ hn, 1 ≤ hn → hn ≤ (["A", "B", "C"] : List Car).length →
        ∃ r1 ∈ _generate_small_group_heats ["A", "B", "C"] ["A", "B", "C", "D"],
          ∃ r2 ∈ _generate_small_group_heats ["A", "B", "C"] ["A", "B", "C", "D"],
            r1.heat = hn ∧ r2.heat = hn ∧ r1.car = c1 ∧ r2.car = c2)) :=
  ⟨⟨by decide, by decide⟩,
    C3_small_group_rotation ["A", "B", "C"] ["A", "B", "C", "D"]
      (by decide) (by decide) (by decide) (by decide)⟩

/-- C9: exhausting every generation attempt of a group is a non-fatal,
per-group failure.  If all `attempts` candidates for group `g` are rejected by
the validator, the attempt loop (the driver's for-else) yields `none` for that
group — a reported skip, not an exception — and the outer loop's results for
the sibling groups before and after `g` are exactly what they would be on
their own: `processGroups` of `gs1 ++ g :: gs2` is `processGroups gs1`, then
`(g, none)`, then `processGroups gs2`. -/
theorem C9_exhaustion_nonfatal (gen : Nat → Nat → List Assignment)
    (valid : List Assignment → Bool) (attempts : Nat)
    (g : Nat) (gs1 gs2 : List Nat)
    (hfail : ∀ i < attempts, valid (gen g i) = false) :
    attemptLoop (gen g) valid attempts = none ∧
    processGroups gen valid attempts (gs1 ++ g :: gs2)
      = processGroups gen valid attempts gs1
        ++ (g, none) :: processGroups gen valid attempts gs2 := by
  have hnone : attemptLoop (gen g) valid attempts = none := by
    unfold attemptLoop
    apply List.findSome?_eq_none_iff.mpr
    intro i hi
    have hilt : i < attempts := List.mem_range.mp hi
    show (if valid (gen g i) then some (gen g i) else none) = none
    rw [hfail i hilt]
    rfl
  refine ⟨hnone, ?_⟩
  unfold processGroups
  rw [List.map_append, List.map_cons, hnone]

theorem C9_exhaustion_nonfatal_witness :
    (∀ i < 200, (fun df => validate_heats df 3 2 (some ["A", "B"]))
        ((fun _ _ => ([] : List Assignment)) 1 i) = false) ∧
    (attemptLoop ((fun _ _ => ([] : List Assignment)) 1)
        (fun df => validate_heats df 3 2 (some ["A", "B"])) 200 = none ∧
      processGroups (fun _ _ => ([] : List Assignment))
          (fun df => validate_heats df 3 2 (some ["A", "B"])) 200 ([0] ++ 1 :: [2])
        = processGroups (fun _ _ => ([] : List Assignment))
            (fun df => validate_heats df 3 2 (some ["A", "B"])) 200 [0]
          ++ (1, none) :: processGroups (fun _ _ => ([] : List Assignment))
            (fun df => validate_heats df 3 2 (some ["A", "B"])) 200 [2]) :=
  ⟨fun i _ => by
      show validate_heats [] 3 2 (some ["A", "B"]) = false
      decide,
    C9_exhaustion_nonfatal (fun _ _ => ([] : List Assignment))
      (fun df => validate_heats df 3 2 (some ["A", "B"])) 200 1 [0] [2]
      (fun i _ => by
        show validate_heats [] 3 2 (some ["A", "B"]) = false
        decide)⟩
